import Mathlib

/-- JS truthiness of an optional string (`undefined`, `null` and `""` are falsy). -/
def jsTruthy : Option String → Bool
  | none => false
  | some s => s ≠ ""

/-- JS `Map.get(k)` with a default for `undefined` (the `|| dflt` idiom). -/
def getD {α : Type} (m : List (String × α)) (k : String) (d : α) : α :=
  match m.find? (fun kv => kv.1 == k) with
  | some kv => kv.2
  | none => d

/-- JS `Map.has(k)`. -/
def hasKey {α : Type} (m : List (String × α)) (k : String) : Bool :=
  (m.find? (fun kv => kv.1 == k)).isSome

/-- JS `Map.set(k, v)`: update the first occurrence in place, else append. -/
def setKey {α : Type} (m : List (String × α)) (k : String) (v : α) : List (String × α) :=
  match m with
  | [] => [(k, v)]
  | kv :: rest => if kv.1 == k then (k, v) :: rest else kv :: setKey rest k v

/-- Keys of an association list, in order. -/
def keysOf {α : Type} (m : List (String × α)) : List String := m.map (·.1)

/-- A dependency reference of an `EnqueuedScript` (the GraphQL node shape:
an object with an optional `handle`). -/
structure ScriptDependency where
  handle : Option String := none
  deriving DecidableEq, Repr

/-- `ScriptLoadingGroupEnum` from the repository's GraphQL types. -/
inductive ScriptLoadingGroupEnum where
  | HEADER
  | FOOTER
  deriving DecidableEq, Repr

/-- `ScriptLoadingStrategyEnum` from the repository's GraphQL types. -/
inductive ScriptLoadingStrategyEnum where
  | ASYNC
  | DEFER
  deriving DecidableEq, Repr

/-- The `EnqueuedScript` descriptor shape consumed by the resolver and the
loaders.  All fields are optional, as in the GraphQL type.  `before` and
`after` can be a string or an array of strings in the source; both loaders
immediately join arrays with `' '` into a single string, so the joined
string is modelled. -/
structure EnqueuedScript where
  id : Option String := none
  handle : Option String := none
  src : Option String := none
  dependencies : Option (List ScriptDependency) := none
  before : Option String := none
  after : Option String := none
  extraData : Option String := none
  location : Option ScriptLoadingGroupEnum := none
  strategy : Option ScriptLoadingStrategyEnum := none
  deriving DecidableEq, Repr

/-- `scriptMap.get h`: the last script in input order whose truthy handle is `h`
(`scriptMap.set` overwrites on duplicate handles). -/
def scriptMapGet (scripts : List EnqueuedScript) (h : String) : Option EnqueuedScript :=
  scripts.foldl
    (fun acc s => if jsTruthy s.handle && (s.handle == some h) then some s else acc) none

/-- `script.dependencies?.filter(Boolean) || []` (entries are objects, hence truthy). -/
def depsOf (s : EnqueuedScript) : List ScriptDependency :=
  s.dependencies.getD []

/-- The edges `(dependency handle, dependent handle)` contributed by one script:
one edge per dependency reference `dep` with `dep?.handle &&
scriptMap.has(dep.handle)`, in source order. -/
def edgesOfScript (scripts : List EnqueuedScript) (s : EnqueuedScript) :
    List (String × String) :=
  if jsTruthy s.handle then
    (depsOf s).filterMap (fun d =>
      if jsTruthy d.handle && (scriptMapGet scripts (d.handle.getD "")).isSome
      then some (d.handle.getD "", s.handle.getD "") else none)
  else []

/-- All edges of the dependency graph, in the order the source's nested
`forEach` loops visit them. -/
def edgeList (scripts : List EnqueuedScript) : List (String × String) :=
  scripts.flatMap (edgesOfScript scripts)

/-- One step of the seeding pass for one script. -/
def seedStep (acc : List (String × List String) × List (String × Int))
    (s : EnqueuedScript) :
    List (String × List String) × List (String × Int) :=
  if jsTruthy s.handle && !hasKey acc.1 (s.handle.getD "") then
    (acc.1 ++ [(s.handle.getD "", [])], acc.2 ++ [(s.handle.getD "", 0)])
  else acc

/-- Seeding pass: `adjList.set(handle, [])` and `inDegree.set(handle, 0)` for
every truthy handle not yet present, in input order. -/
def seedMaps (scripts : List EnqueuedScript) :
    List (String × List String) × List (String × Int) :=
  scripts.foldl seedStep ([], [])

/-- One edge insertion: push the dependent onto the dependency's adjacency
list and increment the dependent's in-degree (`(get(...) || 0) + 1`). -/
def addEdge (acc : List (String × List String) × List (String × Int))
    (e : String × String) :
    List (String × List String) × List (String × Int) :=
  (setKey acc.1 e.1 (getD acc.1 e.1 [] ++ [e.2]),
   setKey acc.2 e.2 (getD acc.2 e.2 0 + 1))

/-- The adjacency list and in-degree map after both construction passes.
The nested `forEach` loops of the source perform exactly the `addEdge`
operations of `edgeList scripts`, in that order. -/
def buildGraph (scripts : List EnqueuedScript) :
    List (String × List String) × List (String × Int) :=
  (edgeList scripts).foldl addEdge (seedMaps scripts)

/-- The inner loop of one dequeue step: for each dependent `d` of the current
handle, set `inDegree[d] := (inDegree.get(d) || 0) - 1` and enqueue `d`
when the new degree is exactly `0`.  Returns the updated map and the
handles enqueued by this step, in order. -/
def processDeps : List String → List (String × Int) →
    List (String × Int) × List String
  | [], deg => (deg, [])
  | d :: rest, deg =>
    let nd := getD deg d 0 - 1
    let deg' := setKey deg d nd
    let next := processDeps rest deg'
    (next.1, if nd = 0 then d :: next.2 else next.2)

/-- Number of entries with a positive value; the termination measure of the
Kahn loop decreases against it. -/
def countPos (deg : List (String × Int)) : Nat :=
  (deg.filter (fun kv => 0 < kv.2)).length

/-- The Kahn loop: dequeue from the front (`queue.shift()`), append the
handle to the output, decrement dependents and enqueue the ones whose
degree reaches `0` at the back.  The structural `fuel` argument bounds the
number of iterations; `kahnSorted` below seeds it with
`queue.length + countPos inDegree`, which `kahnLoopF_spec` proves is never
exhausted, so the `fuel = 0` branch is unreachable from `kahnSorted`. -/
def kahnLoop (adj : List (String × List String)) :
    Nat → List String → List (String × Int) → List String → List String
  | 0, _, _, out => out
  | _ + 1, [], _, out => out
  | fuel + 1, cur :: qrest, deg, out =>
    kahnLoop adj fuel (qrest ++ (processDeps (getD adj cur []) deg).2)
      (processDeps (getD adj cur []) deg).1 (out ++ [cur])

/-- Cycle recovery: push each truthy handle not already in `sorted`, in input
order, re-checking membership after every push. -/
def appendMissing (acc : List String) (s : EnqueuedScript) : List String :=
  if jsTruthy s.handle && !(acc.contains (s.handle.getD "")) then
    acc ++ [s.handle.getD ""]
  else acc

/-- The initial FIFO queue: handles whose seeded in-degree is `0`, in
insertion (first-occurrence) order. -/
def queue0 (scripts : List EnqueuedScript) : List String :=
  ((buildGraph scripts).2.filter (fun kv => kv.2 == 0)).map (·.1)

/-- The handle order produced by the Kahn loop alone. -/
def kahnSorted (scripts : List EnqueuedScript) : List String :=
  kahnLoop (buildGraph scripts).1
    ((queue0 scripts).length + countPos (buildGraph scripts).2)
    (queue0 scripts) (buildGraph scripts).2 []

/-- Whether the source's `console.warn` branch fires:
`sorted.length !== scripts.length`. -/
def cycleWarning (scripts : List EnqueuedScript) : Bool :=
  (kahnSorted scripts).length != scripts.length

/-- The handle order after the cycle-recovery append. -/
def finalHandles (scripts : List EnqueuedScript) : List String :=
  if cycleWarning scripts then scripts.foldl appendMissing (kahnSorted scripts)
  else kahnSorted scripts

/-- Full embedding of `sortScriptsByDependencies`, also returning whether the
`console.warn` branch (`sorted.length !== scripts.length`) fired. -/
def sortScriptsWithWarning (scripts : List EnqueuedScript) :
    List EnqueuedScript × Bool :=
  if scripts.isEmpty then ([], false)
  else
    ((finalHandles scripts).filterMap (scriptMapGet scripts) ++
      scripts.filter (fun s => !jsTruthy s.handle),
     cycleWarning scripts)

/-- `sortScriptsByDependencies(scripts)` as exported by the package. -/
def sortScriptsByDependencies (scripts : List EnqueuedScript) : List EnqueuedScript :=
  (sortScriptsWithWarning scripts).1

/-- The truthy handles of the input, in input order (with multiplicity). -/
def truthyHandles (scripts : List EnqueuedScript) : List String :=
  (scripts.filter (fun s => jsTruthy s.handle)).map (fun s => s.handle.getD "")

/-- Number of edges into `h` whose source has not been emitted yet. -/
def cntOut (edges : List (String × String)) (out : List String) (h : String) : Nat :=
  (edges.filter (fun e => e.2 == h && !(decide (e.1 ∈ out)))).length

/-- Loop invariant of the Kahn phase.  `keyP` holds of the indexed handles;
`q` is the pending queue, `deg` the current in-degree map, `out` the handles
already emitted. -/
structure KInv (edges : List (String × String)) (keyP : String → Prop)
    (q : List String) (deg : List (String × Int)) (out : List String) : Prop where
  nodup : (out ++ q).Nodup
  degEq : ∀ h, getD deg h 0 = (cntOut edges out h : Int)
  memZero : ∀ h ∈ out ++ q, getD deg h 0 = 0
  zeroMem : ∀ h, keyP h → getD deg h 0 = 0 → h ∈ out ++ q
  outP : ∀ h ∈ out, keyP h
  qP : ∀ h ∈ q, keyP h
  ordInv : ∀ (j : Nat) (hj : j < out.length) (u : String),
    (u, out.get ⟨j, hj⟩) ∈ edges →
    ∃ (i : Nat) (hij : i < j), out.get ⟨i, Nat.lt_trans hij hj⟩ = u

/-- Acyclicity of the handle-level dependency graph: a rank function that
strictly increases along every edge (the standard witness form of a DAG). -/
def AcyclicRank (edges : List (String × String)) (rank : String → Nat) : Prop :=
  ∀ e ∈ edges, rank e.1 < rank e.2

/-- Concrete scripts used by the claim witnesses below. -/
def wScriptA : EnqueuedScript := { handle := some "a", src := some "https://wp.example.com/a.js" }

/-- Concrete dependent script used by the claim witnesses below. -/
def wScriptB : EnqueuedScript :=
  { handle := some "b"
    src := some "https://wp.example.com/b.js"
    dependencies := some [{ handle := some "a" }] }

/-- UTF-8 encoding of one Unicode scalar value. -/
def utf8EncodeChar (n : Nat) : List Nat :=
  if n < 0x80 then [n]
  else if n < 0x800 then [0xC0 + n / 64, 0x80 + n % 64]
  else if n < 0x10000 then [0xE0 + n / 4096, 0x80 + n / 64 % 64, 0x80 + n % 64]
  else [0xF0 + n / 262144, 0x80 + n / 4096 % 64, 0x80 + n / 64 % 64, 0x80 + n % 64]

/-- UTF-8 encoding of a string. -/
def utf8EncodeAll (s : List Char) : List Nat :=
  s.flatMap (fun c => utf8EncodeChar c.toNat)

/-- Whether a byte is a UTF-8 continuation byte. -/
def utf8Cont (b : Nat) : Bool := 0x80 ≤ b && b < 0xC0

/-- Streaming UTF-8 decoder: `needed` counts the continuation bytes still
expected for the current character and `acc` accumulates its value.  Invalid
bytes decode to U+FFFD (as with `TextDecoder`'s replacement behavior); the
decoder is exact on valid UTF-8, which is all the round-trip theorems use. -/
def utf8Dec : Nat → Nat → List Nat → List Char
  | 0, _, [] => []
  | _ + 1, _, [] => ['�']
  | 0, _, b :: rest =>
    if b < 0x80 then Char.ofNat b :: utf8Dec 0 0 rest
    else if b < 0xC0 then '�' :: utf8Dec 0 0 rest
    else if b < 0xE0 then utf8Dec 1 (b - 0xC0) rest
    else if b < 0xF0 then utf8Dec 2 (b - 0xE0) rest
    else if b < 0xF8 then utf8Dec 3 (b - 0xF0) rest
    else '�' :: utf8Dec 0 0 rest
  | needed + 1, acc, b :: rest =>
    if utf8Cont b then
      if needed = 0 then Char.ofNat (acc * 64 + (b - 0x80)) :: utf8Dec 0 0 rest
      else utf8Dec needed (acc * 64 + (b - 0x80)) rest
    else '�' :: utf8Dec 0 0 rest

/-- Permissive UTF-8 decoding of a byte sequence. -/
def utf8DecodeAll (bs : List Nat) : List Char := utf8Dec 0 0 bs

/-- The base64 alphabet, as used by `Buffer.toString('base64')` and `btoa`. -/
def base64Chars : List Char :=
  ['A', 'B', 'C', 'D', 'E', 'F', 'G', 'H', 'I', 'J', 'K', 'L', 'M',
   'N', 'O', 'P', 'Q', 'R', 'S', 'T', 'U', 'V', 'W', 'X', 'Y', 'Z',
   'a', 'b', 'c', 'd', 'e', 'f', 'g', 'h', 'i', 'j', 'k', 'l', 'm',
   'n', 'o', 'p', 'q', 'r', 's', 't', 'u', 'v', 'w', 'x', 'y', 'z',
   '0', '1', '2', '3', '4', '5', '6', '7', '8', '9', '+', '/']

/-- The base64 digit for a 6-bit value. -/
def b64Enc (n : Nat) : Char := base64Chars.getD n 'A'

/-- The 6-bit value of a base64 digit (`atob`'s inverse table). -/
def b64Dec (c : Char) : Nat := base64Chars.indexOf c

/-- Standard padded base64 of a byte sequence (`Buffer.toString('base64')`). -/
def base64Encode : List Nat → List Char
  | [] => []
  | [a] => [b64Enc (a / 4), b64Enc (a % 4 * 16), '=', '=']
  | [a, b] => [b64Enc (a / 4), b64Enc (a % 4 * 16 + b / 16), b64Enc (b % 16 * 4), '=']
  | a :: b :: c :: rest =>
    b64Enc (a / 4) :: b64Enc (a % 4 * 16 + b / 16) :: b64Enc (b % 16 * 4 + c / 64) ::
      b64Enc (c % 64) :: base64Encode rest

/-- Standard padded base64 decoding (`atob` on well-formed input). -/
def base64Decode : List Char → List Nat
  | w :: x :: y :: z :: rest =>
    if y = '=' then [b64Dec w * 4 + b64Dec x / 16]
    else if z = '=' then [b64Dec w * 4 + b64Dec x / 16, b64Dec x % 16 * 16 + b64Dec y / 4]
    else (b64Dec w * 4 + b64Dec x / 16) :: (b64Dec x % 16 * 16 + b64Dec y / 4) ::
      (b64Dec y % 4 * 64 + b64Dec z) :: base64Decode rest
  | _ => []

/-- Cyclic XOR against the salt bytes, starting at index `i`:
`encoded[i] = bytes[i] ^ salt[i % salt.length]`. -/
def xorCycle (salt : List Nat) : Nat → List Nat → List Nat
  | _, [] => []
  | i, b :: rest => (b ^^^ salt.getD (i % salt.length) 0) :: xorCycle salt (i + 1) rest

/-- `encodeWithSalt(data, salt)` from the proxy middleware. -/
def encodeWithSalt (data salt : List Char) : List Char :=
  base64Encode (xorCycle (utf8EncodeAll salt) 0 (utf8EncodeAll data))

/-- `decodeWithSalt(encoded, salt)` from `BodyScripts`. -/
def decodeWithSalt (encoded salt : List Char) : List Char :=
  utf8DecodeAll (xorCycle (utf8EncodeAll salt) 0 (base64Decode encoded))

/-- A character allowed in a URL scheme. -/
def isSchemeChar (c : Char) : Bool :=
  c.isAlpha || c.isDigit || c = '+' || c = '-' || c = '.'

/-- A character that does not end the authority component. -/
def isAuthChar (c : Char) : Bool := !(c = '/' || c = '?' || c = '#')

/-- A character that does not end the pathname component. -/
def notQueryHash (c : Char) : Bool := !(c = '?' || c = '#')

/-- The components of a parsed absolute URL. -/
structure UrlParts where
  scheme : List Char
  host : List Char
  pathname : List Char
  search : List Char
  hash : List Char
  deriving DecidableEq, Repr

/-- The pathname, search and hash components parsed from the part of the
URL that follows the authority. -/
def parseRest (scheme auth rest : List Char) : UrlParts :=
  ⟨scheme, auth,
   (if rest.takeWhile notQueryHash = [] then ['/'] else rest.takeWhile notQueryHash),
   (rest.drop (rest.takeWhile notQueryHash).length).takeWhile (fun c => !(c = '#')),
   (rest.drop (rest.takeWhile notQueryHash).length).drop
     (((rest.drop (rest.takeWhile notQueryHash).length).takeWhile
       (fun c => !(c = '#'))).length)⟩

/-- Parse an absolute hierarchical URL, `new URL`-style: `none` models the
constructor throwing. -/
def parseAbsUrl (url : List Char) : Option UrlParts :=
  if url.takeWhile isSchemeChar = [] then none
  else if !((url.takeWhile isSchemeChar).headD 'a').isAlpha then none
  else if !("://".data.isPrefixOf (url.drop (url.takeWhile isSchemeChar).length)) then
    none
  else if (url.drop ((url.takeWhile isSchemeChar).length + 3)).takeWhile isAuthChar
      = [] then none
  else some (parseRest (url.takeWhile isSchemeChar)
    ((url.drop ((url.takeWhile isSchemeChar).length + 3)).takeWhile isAuthChar)
    ((url.drop ((url.takeWhile isSchemeChar).length + 3)).drop
      ((url.drop ((url.takeWhile isSchemeChar).length + 3)).takeWhile
        isAuthChar).length))

/-- `extractPath` (both loaders): the URL's pathname, or the input itself
when URL parsing fails. -/
def extractPath (url : List Char) : List Char :=
  match parseAbsUrl url with
  | some u => u.pathname
  | none => url

/-- The regex `^\/wp-(?:includes|admin)\//` from both loaders. -/
def isInternalRoute (path : List Char) : Bool :=
  "/wp-includes/".data.isPrefixOf path || "/wp-admin/".data.isPrefixOf path

/-- The proxy rewriting block shared by `HeadScripts.loadNextScript` and
`BodyScripts.loadNextScript`:
`/atx/${instance}/wp-internal-assets${path}` for internal routes, else
`/atx/${instance}/wp-assets${path}`. -/
def rewriteScriptSrc (inst : List Char) (src : List Char) : List Char :=
  if isInternalRoute (extractPath src) then
    "/atx/".data ++ inst ++ "/wp-internal-assets".data ++ extractPath src
  else
    "/atx/".data ++ inst ++ "/wp-assets".data ++ extractPath src

/-- Build an absolute URL from raw components. -/
def mkUrl (scheme host path search hash : List Char) : List Char :=
  scheme ++ "://".data ++ host ++ path ++ search ++ hash

/-- JavaScript `a || b` on optional strings: the left operand when truthy. -/
def jsOr (a b : Option String) : Option String :=
  if jsTruthy a then a else b

/-- The loaders' deduplication cache key. -/
def cacheKey (script : EnqueuedScript) (currentIndex : Nat) : String :=
  (jsOr script.id (jsOr script.handle (jsOr script.src
    (some ("inline-" ++ toString currentIndex))))).getD ""

/-- Descriptor whose `id` and `handle` are both present and differ, as in the
repository's own test fixtures (`id: 'script-1', handle: 'script-1'` pattern
with distinct values here). -/
def sIdA : EnqueuedScript :=
  { id := some "script-a"
    handle := some "a" }

/-- Observable loader actions, in DOM/temporal order. -/
inductive LoadEvent where
  | attachExtra (i : Nat)
  | attachBefore (i : Nat)
  | attachMain (i : Nat)
  | term (i : Nat) (ok : Bool)
  | attachAfter (i : Nat)
  | complete
  deriving DecidableEq, Repr

/-- The asset index an event belongs to (`none` for the completion event). -/
def evIdx : LoadEvent → Option Nat
  | .attachExtra i => some i
  | .attachBefore i => some i
  | .attachMain i => some i
  | .term i _ => some i
  | .attachAfter i => some i
  | .complete => none

/-- Events ordered by asset index (vacuous for the completion event). -/
def evLE (e f : LoadEvent) : Prop :=
  ∀ a b, evIdx e = some a → evIdx f = some b → a ≤ b

/-- The events of one non-skipped iteration of `loadNextScript` for the
script at position `i`, with `outcome i` the main element's terminal
event. -/
def scriptBlock (outcome : Nat → Bool) (s : EnqueuedScript) (i : Nat) : List LoadEvent :=
  (if jsTruthy s.extraData then [LoadEvent.attachExtra i] else []) ++
  (if jsTruthy s.before then [LoadEvent.attachBefore i] else []) ++
  (if jsTruthy s.src then
    [LoadEvent.attachMain i, LoadEvent.term i (outcome i)] ++
    (if outcome i && jsTruthy s.after then [LoadEvent.attachAfter i] else [])
  else [])

/-- The `loadNextScript` recursion over the sorted scripts: produces the
event trace and the final `LoadCache` contents. `i` is the JS
`currentIndex` before its increment, so the ordinal cache key uses
`i + 1`. -/
def loadNextScriptLoop (outcome : Nat → Bool) :
    List EnqueuedScript → Nat → List String → List LoadEvent × List String
  | [], _, cache => ([LoadEvent.complete], cache)
  | s :: rest, i, cache =>
    if cache.contains (cacheKey s (i + 1)) then
      loadNextScriptLoop outcome rest (i + 1) cache
    else
      (scriptBlock outcome s i ++
        (loadNextScriptLoop outcome rest (i + 1) (cache ++ [cacheKey s (i + 1)])).1,
       (loadNextScriptLoop outcome rest (i + 1) (cache ++ [cacheKey s (i + 1)])).2)

/-- The trace of a no-skip run: one block per script, then completion. -/
def blocks (outcome : Nat → Bool) : List EnqueuedScript → Nat → List LoadEvent
  | [], _ => [LoadEvent.complete]
  | s :: rest, i => scriptBlock outcome s i ++ blocks outcome rest (i + 1)

/-- The cache keys of the scripts starting at JS `currentIndex` `i`. -/
def keysFrom : List EnqueuedScript → Nat → List String
  | [], _ => []
  | s :: rest, i => cacheKey s (i + 1) :: keysFrom rest (i + 1)

/-- One full loader phase: the `useEffect` body starts the recursion at
index 0 (the `LoadCache` is empty on first page load). -/
def bodyScriptsRun (outcome : Nat → Bool) (scripts : List EnqueuedScript) :
    List LoadEvent × List String :=
  loadNextScriptLoop outcome scripts 0 []

/-- Three src-bearing footer scripts; the second one's load fails. -/
def outc3 : Nat → Bool := fun n => !(n == 1)

def sA3 : EnqueuedScript :=
  { handle := some "a"
    src := some "https://wp.example.com/a.js" }

def sB3 : EnqueuedScript :=
  { handle := some "b"
    src := some "https://wp.example.com/b.js" }

def sC3 : EnqueuedScript :=
  { handle := some "c"
    src := some "https://wp.example.com/c.js" }

def scr3 : List EnqueuedScript := [sA3, sB3, sC3]

/-- One global single-character `String.replace` pass. -/
def replaceChar (t : Char) (r : List Char) (s : List Char) : List Char :=
  s.flatMap (fun c => if c = t then r else [c])

/-- `esc_js` (woocommerce.ts lines 152-168): strip CR, escape backslashes
first, then single quotes, then double quotes, then newlines. -/
def escJs (text : List Char) : List Char :=
  replaceChar '\n' ['\\', 'n']
    (replaceChar '"' ['\\', '"']
      (replaceChar '\'' ['\\', '\'']
        (replaceChar '\\' ['\\', '\\']
          (text.filter (fun c => !(c = '\r'))))))

/-- One global two-character `String.replace` pass (left-to-right,
non-overlapping, as `String.prototype.replace` with a /g regex). -/
def replacePair (a b : Char) (r : List Char) : List Char → List Char
  | [] => []
  | [x] => [x]
  | x :: y :: rest =>
    if x = a ∧ y = b then r ++ replacePair a b r rest
    else x :: replacePair a b r (y :: rest)

/-- `unescape_js` (lines 177-191): the same passes in reverse order. -/
def unescapeJs (text : List Char) : List Char :=
  replacePair '\\' '\\' ['\\']
    (replacePair '\\' '\'' ['\'']
      (replacePair '\\' '"' ['"']
        (replacePair '\\' 'n' ['\n'] text)))

/-- Characters `encodeURIComponent` leaves unescaped. -/
def isUnreservedUri (c : Char) : Bool :=
  c.isAlphanum || c = '-' || c = '_' || c = '.' || c = '!' ||
    c = '~' || c = '*' || c = '\'' || c = '(' || c = ')'

def hexDigitUpper (n : Nat) : Char :=
  if n < 10 then Char.ofNat (48 + n) else Char.ofNat (55 + n)

def hexDigitLower (n : Nat) : Char :=
  if n < 10 then Char.ofNat (48 + n) else Char.ofNat (87 + n)

def pctByte (b : Nat) : List Char := ['%', hexDigitUpper (b / 16), hexDigitUpper (b % 16)]

/-- `encodeURIComponent` (= PHP `rawurlencode` per the source comment):
unreserved characters pass through, everything else becomes the `%XX`
encoding of its UTF-8 bytes. -/
def uriEncode (s : List Char) : List Char :=
  s.flatMap (fun c =>
    if isUnreservedUri c then [c] else (utf8EncodeChar c.toNat).flatMap pctByte)

def hexVal (c : Char) : Option Nat :=
  if '0' ≤ c ∧ c ≤ '9' then some (c.toNat - 48)
  else if 'A' ≤ c ∧ c ≤ 'F' then some (c.toNat - 55)
  else if 'a' ≤ c ∧ c ≤ 'f' then some (c.toNat - 87)
  else none

/-- The byte sequence denoted by a percent-encoded string: `%XX` groups
contribute their byte, literal characters contribute their UTF-8 bytes;
`none` models `decodeURIComponent` throwing `URIError` on a malformed
escape. -/
def uriToBytes : List Char → Option (List Nat)
  | [] => some []
  | c :: rest =>
    if c = '%' then
      match rest with
      | a :: b :: rest2 =>
        match hexVal a, hexVal b, uriToBytes rest2 with
        | some x, some y, some bs => some ((16 * x + y) :: bs)
        | _, _, _ => none
      | _ => none
    else
      match uriToBytes rest with
      | some bs => some (utf8EncodeChar c.toNat ++ bs)
      | none => none

/-- `decodeURIComponent`. -/
def uriDecode (s : List Char) : Option (List Char) :=
  match uriToBytes s with
  | some bs => some (utf8DecodeAll bs)
  | none => none

mutual
inductive Json where
  | null
  | bool (b : Bool)
  | num (n : Int)
  | str (s : List Char)
  | arr (xs : JsonList)
  | obj (kvs : JsonObj)
inductive JsonList where
  | nil
  | cons (hd : Json) (tl : JsonList)
inductive JsonObj where
  | nil
  | cons (k : List Char) (v : Json) (tl : JsonObj)
end

/-- `JSON.stringify` escaping of one string character. -/
def jsonEscChar (c : Char) : List Char :=
  if c = '"' then ['\\', '"']
  else if c = '\\' then ['\\', '\\']
  else if c = '\n' then ['\\', 'n']
  else if c = '\r' then ['\\', 'r']
  else if c = '\t' then ['\\', 't']
  else if c = Char.ofNat 8 then ['\\', 'b']
  else if c = Char.ofNat 12 then ['\\', 'f']
  else if c.toNat < 32 then
    ['\\', 'u', '0', '0', hexDigitLower (c.toNat / 16), hexDigitLower (c.toNat % 16)]
  else [c]

def jsonStrLit (s : List Char) : List Char := '"' :: s.flatMap jsonEscChar ++ ['"']

def natDigitsAux : Nat → Nat → List Char
  | 0, _ => []
  | fuel + 1, n =>
    if n < 10 then [Char.ofNat (48 + n)]
    else natDigitsAux fuel (n / 10) ++ [Char.ofNat (48 + n % 10)]

/-- Decimal digits of a natural number. -/
def natStr (n : Nat) : List Char := natDigitsAux (n + 1) n

def intStr (i : Int) : List Char :=
  if i < 0 then '-' :: natStr i.natAbs else natStr i.natAbs

mutual
/-- `JSON.stringify` (no indentation). -/
def jsonStringify : Json → List Char
  | .null => "null".data
  | .bool true => "true".data
  | .bool false => "false".data
  | .num i => intStr i
  | .str s => jsonStrLit s
  | .arr xs => '[' :: jsonStringifyList xs ++ [']']
  | .obj kvs => '{' :: jsonStringifyObj kvs ++ ['}']
def jsonStringifyList : JsonList → List Char
  | .nil => []
  | .cons x .nil => jsonStringify x
  | .cons x (.cons y tl) => jsonStringify x ++ ',' :: jsonStringifyList (.cons y tl)
def jsonStringifyObj : JsonObj → List Char
  | .nil => []
  | .cons k v .nil => jsonStrLit k ++ ':' :: jsonStringify v
  | .cons k v (.cons k2 v2 tl) =>
    (jsonStrLit k ++ ':' :: jsonStringify v) ++ ',' :: jsonStringifyObj (.cons k2 v2 tl)
end

def isJsonWs (c : Char) : Bool := c = ' ' || c = '\t' || c = '\n' || c = '\r'

/-- JSON string escape after a backslash (simple escapes). -/
def jsonUnescChar (c : Char) : Option Char :=
  if c = '"' then some '"'
  else if c = '\\' then some '\\'
  else if c = '/' then some '/'
  else if c = 'n' then some '\n'
  else if c = 'r' then some '\r'
  else if c = 't' then some '\t'
  else if c = 'b' then some (Char.ofNat 8)
  else if c = 'f' then some (Char.ofNat 12)
  else none

/-- Parse the body of a JSON string literal (after the opening quote),
returning the decoded characters and the remaining input. -/
def jsonParseStrBody : List Char → Option (List Char × List Char)
  | [] => none
  | c :: rest =>
    if c = '"' then some ([], rest)
    else if c = '\\' then
      match rest with
      | 'u' :: a :: b :: c2 :: d :: rest2 =>
        match hexVal a, hexVal b, hexVal c2, hexVal d with
        | some x, some y, some z, some w =>
          match jsonParseStrBody rest2 with
          | some (s, r) => some (Char.ofNat (4096 * x + 256 * y + 16 * z + w) :: s, r)
          | none => none
        | _, _, _, _ => none
      | e :: rest2 =>
        if e = 'u' then none
        else
          match jsonUnescChar e with
          | some c3 =>
            match jsonParseStrBody rest2 with
            | some (s, r) => some (c3 :: s, r)
            | none => none
          | none => none
      | [] => none
    else if c.toNat < 32 then none
    else
      match jsonParseStrBody rest with
      | some (s, r) => some (c :: s, r)
      | none => none

def digitsToNat (ds : List Char) : Nat :=
  ds.foldl (fun acc c => 10 * acc + (c.toNat - 48)) 0

mutual
/-- Fuel-based recursive-descent model of `JSON.parse` on the integer
subset (numbers without fraction or exponent, which is all the pipeline's
`stringify` emits). -/
def jsonParseVal : Nat → List Char → Option (Json × List Char)
  | 0, _ => none
  | fuel + 1, s => jsonParseCore fuel (s.dropWhile isJsonWs)
def jsonParseCore : Nat → List Char → Option (Json × List Char)
  | 0, _ => none
  | _ + 1, [] => none
  | fuel + 1, c :: rest =>
    if c = 'n' then
      if "ull".data.isPrefixOf rest then some (.null, rest.drop 3) else none
    else if c = 't' then
      if "rue".data.isPrefixOf rest then some (.bool true, rest.drop 3) else none
    else if c = 'f' then
      if "alse".data.isPrefixOf rest then some (.bool false, rest.drop 4) else none
    else if c = '"' then
      match jsonParseStrBody rest with
      | some (s2, r) => some (.str s2, r)
      | none => none
    else if c = '-' then
      if rest.takeWhile Char.isDigit = [] then none
      else some (.num (-(digitsToNat (rest.takeWhile Char.isDigit) : Int)),
        rest.drop (rest.takeWhile Char.isDigit).length)
    else if c.isDigit then
      some (.num (digitsToNat (c :: rest.takeWhile Char.isDigit)),
        rest.drop (rest.takeWhile Char.isDigit).length)
    else if c = '[' then
      match jsonParseArr fuel rest with
      | some (xs, r) => some (.arr xs, r)
      | none => none
    else if c = '{' then
      match jsonParseObjBody fuel rest with
      | some (kvs, r) => some (.obj kvs, r)
      | none => none
    else none
def jsonParseArr : Nat → List Char → Option (JsonList × List Char)
  | 0, _ => none
  | fuel + 1, s =>
    match s.dropWhile isJsonWs with
    | ']' :: r => some (.nil, r)
    | t =>
      match jsonParseVal fuel t with
      | some (v, r) =>
        match jsonParseArrTail fuel r with
        | some (tl, r2) => some (.cons v tl, r2)
        | none => none
      | none => none
def jsonParseArrTail : Nat → List Char → Option (JsonList × List Char)
  | 0, _ => none
  | fuel + 1, s =>
    match s.dropWhile isJsonWs with
    | ']' :: r => some (.nil, r)
    | ',' :: r =>
      match jsonParseVal fuel r with
      | some (v, r2) =>
        match jsonParseArrTail fuel r2 with
        | some (tl, r3) => some (.cons v tl, r3)
        | none => none
      | none => none
    | _ => none
def jsonParseObjBody : Nat → List Char → Option (JsonObj × List Char)
  | 0, _ => none
  | fuel + 1, s =>
    match s.dropWhile isJsonWs with
    | '}' :: r => some (.nil, r)
    | '"' :: r =>
      match jsonParseStrBody r with
      | some (k, r2) =>
        match r2.dropWhile isJsonWs with
        | ':' :: r3 =>
          match jsonParseVal fuel r3 with
          | some (v, r4) =>
            match jsonParseObjTail fuel r4 with
            | some (tl, r5) => some (.cons k v tl, r5)
            | none => none
          | none => none
        | _ => none
      | none => none
    | _ => none
def jsonParseObjTail : Nat → List Char → Option (JsonObj × List Char)
  | 0, _ => none
  | fuel + 1, s =>
    match s.dropWhile isJsonWs with
    | '}' :: r => some (.nil, r)
    | ',' :: r =>
      match r.dropWhile isJsonWs with
      | '"' :: r2 =>
        match jsonParseStrBody r2 with
        | some (k, r3) =>
          match r3.dropWhile isJsonWs with
          | ':' :: r4 =>
            match jsonParseVal fuel r4 with
            | some (v, r5) =>
              match jsonParseObjTail fuel r5 with
              | some (tl, r6) => some (.cons k v tl, r6)
              | none => none
            | none => none
          | _ => none
        | none => none
      | _ => none
    | _ => none
end

/-- `JSON.parse`: parse one value, reject trailing garbage. -/
def jsonParse (s : List Char) : Option Json :=
  match jsonParseVal (3 * s.length + 3) s with
  | some (v, r) => if r.dropWhile isJsonWs = [] then some v else none
  | none => none

def isQuote (c : Char) : Bool := c = '\'' || c = '"'

/-- JS regex `\s` over the characters the scanned scripts contain. -/
def isJsSpace (c : Char) : Bool :=
  c = ' ' || c = '\t' || c = '\n' || c = '\r' || c = Char.ofNat 11 || c = Char.ofNat 12

/-- JS regex `\w`. -/
def isWordChar (c : Char) : Bool := c.isAlphanum || c = '_'

/-- Tail of the match of `decodeURIComponent\(\s*['"]([^'"]+)['"]\s*\)`
after the group: `grp` is the candidate group, `rest` the input after
it. -/
def matchQuotedBody (grp rest : List Char) : Option (List Char) :=
  if grp = [] then none
  else if isQuote (rest.headD 'x') then
    if ((rest.drop 1).dropWhile isJsSpace).headD 'x' = ')' then some grp else none
  else none

/-- Match `\s*['"]([^'"]+)['"]\s*\)` against `t` (the text after the
literal `decodeURIComponent(`).  The character classes are disjoint, so
the greedy interpretation is exact. -/
def matchQuoted (t : List Char) : Option (List Char) :=
  if isQuote ((t.dropWhile isJsSpace).headD 'x') then
    matchQuotedBody
      (((t.dropWhile isJsSpace).drop 1).takeWhile (fun c => !(isQuote c)))
      (((t.dropWhile isJsSpace).drop 1).drop
        ((((t.dropWhile isJsSpace).drop 1)).takeWhile (fun c => !(isQuote c))).length)
  else none

/-- Try the `decodeWcSettings` regex at one position. -/
def matchDecodeAt (s : List Char) : Option (List Char) :=
  if "decodeURIComponent(".data.isPrefixOf s then matchQuoted (s.drop 19)
  else none

/-- Leftmost match of the `decodeWcSettings` regex: group 1 of
`beforeScript.match(...)` (lines 205-212). -/
def findDecodeArg : List Char → Option (List Char)
  | [] => none
  | c :: rest =>
    match matchDecodeAt (c :: rest) with
    | some g => some g
    | none => findDecodeArg rest

/-- Tail of the `var\s+(\w+)\s*=` match: `ws` is the matched `\s+`,
`rest` the input after it. -/
def matchVarBody (ws rest : List Char) : Option (List Char) :=
  if ws = [] then none
  else if rest.takeWhile isWordChar = [] then none
  else if ((rest.drop (rest.takeWhile isWordChar).length).dropWhile isJsSpace).headD 'x'
      = '=' then
    some (rest.takeWhile isWordChar)
  else none

/-- Try the `encodeWcSettings` variable regex at one position. -/
def matchVarAt (s : List Char) : Option (List Char) :=
  if "var".data.isPrefixOf s then
    matchVarBody ((s.drop 3).takeWhile isJsSpace)
      ((s.drop 3).drop ((s.drop 3).takeWhile isJsSpace).length)
  else none

/-- Leftmost match of `var\s+(\w+)\s*=` (lines 251-256). -/
def findVarName : List Char → Option (List Char)
  | [] => none
  | c :: rest =>
    match matchVarAt (c :: rest) with
    | some g => some g
    | none => findVarName rest

/-- `decodeWcSettings` (lines 205-224): extract the quoted payload,
reverse `esc_js`, percent-decode, JSON-parse; `none` models the throws. -/
def decodeWcSettings (beforeScript : List Char) : Option (Json × List Char) :=
  match findDecodeArg beforeScript with
  | none => none
  | some enc =>
    match uriDecode (unescapeJs enc) with
    | none => none
    | some j =>
      match jsonParse j with
      | none => none
      | some t => some (t, enc)

/-- `encodeWcSettings` (lines 240-263): stringify, percent-encode,
`esc_js`, splice into the detected `var <name> = ...` template. -/
def encodeWcSettings (beforeScript : List Char) (transformed : Json) : Option (List Char) :=
  match findVarName beforeScript with
  | none => none
  | some w =>
    some (("var ".data ++ w ++ " = JSON.parse( decodeURIComponent( '".data) ++
      escJs (uriEncode (jsonStringify transformed)) ++ "' ) );".data)

/-! Mutation pipeline of `transformWcSettings` (lines 294-435).  Property
access, truthiness and assignment follow JS semantics on JSON values;
`for..in` / `Object.entries` enumeration is modelled on object values
(the settings fields are objects whenever present). -/
def jsTruthyJson : Json → Bool
  | .null => false
  | .bool b => b
  | .num n => !(n == 0)
  | .str s => !s.isEmpty
  | .arr _ => true
  | .obj _ => true

def objGet (k : List Char) : JsonObj → Option Json
  | .nil => none
  | .cons k2 v tl => if k2 = k then some v else objGet k tl

def objSet (k : List Char) (v : Json) : JsonObj → JsonObj
  | .nil => .cons k v .nil
  | .cons k2 v2 tl => if k2 = k then .cons k2 v tl else .cons k2 v2 (objSet k v tl)

/-- First (anchored) match of `^https?:\/\/[^\/]+` replaced by `f`. -/
def replaceOrigin (f : List Char) (s : List Char) : List Char :=
  if "https://".data.isPrefixOf s then
    if (s.drop 8).takeWhile (fun c => !(c = '/')) = [] then s
    else f ++ (s.drop 8).dropWhile (fun c => !(c = '/'))
  else if "http://".data.isPrefixOf s then
    if (s.drop 7).takeWhile (fun c => !(c = '/')) = [] then s
    else f ++ (s.drop 7).dropWhile (fun c => !(c = '/'))
  else s

/-- `String.replace` with a string pattern: first occurrence only. -/
def removeFirstSub (pat : List Char) : List Char → List Char
  | [] => []
  | c :: rest =>
    if pat.isPrefixOf (c :: rest) then (c :: rest).drop pat.length
    else c :: removeFirstSub pat rest

/-- One `storePages` entry: rewrite a truthy string permalink through
`new URL` (whose throw is NOT locally caught and propagates to the outer
catch, modelled as `none`); truthy non-string permalinks also make
`new URL` throw. -/
def mutatePermalink (f : List Char) : Json → Option Json
  | .obj kvs =>
    match objGet "permalink".data kvs with
    | some (.str u) =>
      if u.isEmpty then some (.obj kvs)
      else
        match parseAbsUrl u with
        | some parts => some (.obj (objSet "permalink".data (.str (f ++ parts.pathname)) kvs))
        | none => none
    | some v2 => if jsTruthyJson v2 then none else some (.obj kvs)
    | none => some (.obj kvs)
  | v => some v

def mutateStorePages (f : List Char) : JsonObj → Option JsonObj
  | .nil => some .nil
  | .cons k v tl =>
    match mutatePermalink f v with
    | some v2 =>
      match mutateStorePages f tl with
      | some tl2 => some (.cons k v2 tl2)
      | none => none
    | none => none

/-- `restApiRoutes` rebuild: strip the origin, drop the first `/wp-json`,
prefix the proxy route; non-string values are kept. -/
def mutateRoutes (f inst : List Char) : JsonObj → JsonObj
  | .nil => .nil
  | .cons k v tl =>
    match v with
    | .str u =>
      .cons k (.str ((f ++ "/atx/".data ++ inst ++ "/wp-json".data) ++
        removeFirstSub "/wp-json".data (replaceOrigin [] u))) (mutateRoutes f inst tl)
    | _ => .cons k v (mutateRoutes f inst tl)

/-- Step 1: `storePages` permalinks (URL parse failures propagate). -/
def wcStep1 (f : List Char) (kvs : JsonObj) : Option JsonObj :=
  match objGet "storePages".data kvs with
  | some (.obj spkvs) =>
    match mutateStorePages f spkvs with
    | some spkvs2 => some (objSet "storePages".data (.obj spkvs2) kvs)
    | none => none
  | _ => some kvs

/-- Step 2: `homeUrl` (truthy string check). -/
def wcStep2 (f : List Char) (kvs : JsonObj) : JsonObj :=
  match objGet "homeUrl".data kvs with
  | some (.str u) => if u.isEmpty then kvs else objSet "homeUrl".data (.str f) kvs
  | _ => kvs

/-- Step 3: `dashboardUrl` (URL parse failure locally caught: fall back to
the anchored origin replacement). -/
def wcStep3 (f : List Char) (kvs : JsonObj) : JsonObj :=
  match objGet "dashboardUrl".data kvs with
  | some (.str u) =>
    if u.isEmpty then kvs
    else
      match parseAbsUrl u with
      | some parts => objSet "dashboardUrl".data (.str (f ++ parts.pathname)) kvs
      | none => objSet "dashboardUrl".data (.str (replaceOrigin f u)) kvs
  | _ => kvs

/-- Rewrite one asset URL of `wcBlocksConfig` (parse failures locally
caught: keep the original). -/
def wcAssetUrl (f inst : List Char) (key : List Char) (c : JsonObj) : JsonObj :=
  match objGet key c with
  | some (.str u) =>
    if u.isEmpty then c
    else
      match parseAbsUrl u with
      | some parts =>
        objSet key (.str (f ++ "/atx/".data ++ inst ++ "/wp-assets".data ++ parts.pathname)) c
      | none => c
  | _ => c

/-- `wcBlocksConfig.homeUrl`: truthy check only, no string check. -/
def wcStep4Home (f : List Char) (c : JsonObj) : JsonObj :=
  match objGet "homeUrl".data c with
  | some v => if jsTruthyJson v then objSet "homeUrl".data (.str f) c else c
  | none => c

def wcStep4Routes (f inst : List Char) (c : JsonObj) : JsonObj :=
  match objGet "restApiRoutes".data c with
  | some (.obj rts) => objSet "restApiRoutes".data (.obj (mutateRoutes f inst rts)) c
  | _ => c

/-- Step 4: `wcBlocksConfig` (pluginUrl, productImages, homeUrl,
restApiRoutes). -/
def wcStep4 (f inst : List Char) (kvs : JsonObj) : JsonObj :=
  match objGet "wcBlocksConfig".data kvs with
  | some (.obj c) =>
    objSet "wcBlocksConfig".data
      (.obj (wcStep4Routes f inst
        (wcStep4Home f
          (wcAssetUrl f inst "productImages".data
            (wcAssetUrl f inst "pluginUrl".data c))))) kvs
  | _ => kvs

/-- One Stripe URL: pathname plus search (parse failures locally caught). -/
def wcStripeUrl (f : List Char) (key : List Char) (st : JsonObj) : JsonObj :=
  match objGet key st with
  | some (.str u) =>
    if u.isEmpty then st
    else
      match parseAbsUrl u with
      | some parts => objSet key (.str (f ++ parts.pathname ++ parts.search)) st
      | none => st
  | _ => st

/-- Step 5: `stripe_settings`. -/
def wcStep5 (f : List Char) (kvs : JsonObj) : JsonObj :=
  match objGet "stripe_settings".data kvs with
  | some (.obj st) =>
    objSet "stripe_settings".data
      (.obj (wcStripeUrl f "stripe_checkout_url".data
        (wcStripeUrl f "stripe_return_url".data st))) kvs
  | _ => kvs

/-- Step 6: `wpLoginUrl` behind the `rewriteLoginUrl` option. -/
def wcStep6 (f : List Char) (rl : Bool) (kvs : JsonObj) : JsonObj :=
  if rl then
    match objGet "wpLoginUrl".data kvs with
    | some v => if jsTruthyJson v then objSet "wpLoginUrl".data (.str (f ++ "/login".data)) kvs
        else kvs
    | none => kvs
  else kvs

/-- The mutation block of `transformWcSettings` on the cloned payload
(the clone `JSON.parse(JSON.stringify(target))` is the identity on
JSON-representable values).  Only step 1 can fail. -/
def mutateWcSettings (t : Json) (f inst : List Char) (rl : Bool) : Option Json :=
  match t with
  | .obj kvs =>
    match wcStep1 f kvs with
    | some k1 =>
      some (.obj (wcStep6 f rl (wcStep5 f (wcStep4 f inst (wcStep3 f (wcStep2 f k1))))))
    | none => none
  | v => some v

/-- `transformWcSettings` (lines 294-435): the whole pipeline inside one
`try`, returning the untouched `beforeScript` when anything fails. -/
def transformWcSettings (beforeScript f inst : List Char) (rl : Bool) : List Char :=
  match decodeWcSettings beforeScript with
  | none => beforeScript
  | some (t, _) =>
    match mutateWcSettings t f inst rl with
    | none => beforeScript
    | some m =>
      match encodeWcSettings beforeScript m with
      | none => beforeScript
      | some out => out

/-- The canonical WordPress-generated `wc-settings` before-script for a
payload (AssetDataRegistry.php, per the source comments). -/
def wcEnc (p : Json) : List Char := escJs (uriEncode (jsonStringify p))

def wcRaw (p : Json) : List Char :=
  "var wcSettings = JSON.parse( decodeURIComponent( '".data ++ wcEnc p ++ "' ) );".data

/-- Input with no `decodeURIComponent(...)` pattern at all. -/
def wcBad1 : List Char := "console.log(1);".data

/-- Input whose embedded payload is not valid percent-encoding. -/
def wcBad2 : List Char := "var x = JSON.parse( decodeURIComponent( 'abc%GG' ) );".data

def wcF0 : List Char := "http://localhost:3000".data

def wcI0 : List Char := "default".data

/-- A concrete representable payload. -/
def pW : Json :=
  .obj (.cons "homeUrl".data (.str "https://wp.example.com/".data) .nil)

/-! ## Theorems -/

theorem getD_setKey_self {α : Type} (m : List (String × α)) (k : String) (v d : α) :
    getD (setKey m k v) k d = v := by
  induction m with
  | nil => simp [setKey, getD, List.find?]
  | cons kv rest ih =>
    by_cases h : kv.1 == k
    · simp [setKey, h, getD, List.find?]
    · simp only [setKey, h]
      simp only [Bool.false_eq_true, if_false]
      simpa [getD, List.find?, h] using ih

theorem getD_setKey_other {α : Type} (m : List (String × α)) (k k' : String) (v d : α)
    (hne : k ≠ k') : getD (setKey m k v) k' d = getD m k' d := by
  induction m with
  | nil =>
    simp [setKey, getD, List.find?, show (k == k') = false from beq_eq_false_iff_ne.mpr hne]
  | cons kv rest ih =>
    by_cases h : kv.1 == k
    · have h1 : (k == k') = false := beq_eq_false_iff_ne.mpr hne
      have h2 : (kv.1 == k') = false := by
        have : kv.1 = k := by simpa using h
        simpa [this] using h1
      simp [setKey, h, getD, List.find?, h1, h2]
    · simp only [setKey, h, Bool.false_eq_true, if_false]
      by_cases h' : kv.1 == k'
      · simp [getD, List.find?, h']
      · simp only [getD, List.find?, h']
        simpa [getD, List.find?, h'] using ih

theorem hasKey_iff_mem {α : Type} (m : List (String × α)) (k : String) :
    hasKey m k = true ↔ k ∈ keysOf m := by
  induction m with
  | nil => simp [hasKey, keysOf, List.find?]
  | cons kv rest ih =>
    by_cases h : kv.1 == k
    · have : kv.1 = k := by simpa using h
      simp [hasKey, keysOf, List.find?, h, this]
    · have hne : kv.1 ≠ k := by simpa using h
      simp only [hasKey, List.find?, h, keysOf, List.map_cons, List.mem_cons]
      rw [← keysOf, ← hasKey, ih]
      constructor
      · intro hh
        exact Or.inr hh
      · intro hh
        rcases hh with hh | hh
        · exact absurd hh.symm hne
        · exact hh

theorem getD_of_uniform {α : Type} (m : List (String × α)) (k : String) (d : α)
    (h : ∀ kv ∈ m, kv.2 = d) : getD m k d = d := by
  induction m with
  | nil => simp [getD, List.find?]
  | cons kv rest ih =>
    by_cases hk : kv.1 == k
    · have := h kv (by simp)
      simp [getD, List.find?, hk, this]
    · simp only [getD, List.find?, hk]
      exact ih (fun kv hm => h kv (by simp [hm]))

theorem keysOf_setKey_mem {α : Type} (m : List (String × α)) (k : String) (v : α)
    (hk : k ∈ keysOf m) : keysOf (setKey m k v) = keysOf m := by
  induction m with
  | nil => simp [keysOf] at hk
  | cons kv rest ih =>
    by_cases h : kv.1 == k
    · have : kv.1 = k := by simpa using h
      simp [setKey, h, keysOf, this]
    · have hne : kv.1 ≠ k := by simpa using h
      have hk' : k ∈ keysOf rest := by
        simp only [keysOf, List.map_cons, List.mem_cons] at hk
        rcases hk with hk | hk
        · exact absurd hk.symm hne
        · exact hk
      simp only [setKey, h, Bool.false_eq_true, if_false, keysOf, List.map_cons]
      rw [← keysOf, ← keysOf, ih hk']

theorem getD_entry_of_nodup {α : Type} (m : List (String × α)) (k : String) (d : α)
    (hnd : (keysOf m).Nodup) (hk : k ∈ keysOf m) : (k, getD m k d) ∈ m := by
  induction m with
  | nil => simp [keysOf] at hk
  | cons kv rest ih =>
    by_cases h : kv.1 == k
    · have he : kv.1 = k := by simpa using h
      have : getD (kv :: rest) k d = kv.2 := by simp [getD, List.find?, h]
      rw [this]
      simp [← he]
    · have hne : kv.1 ≠ k := by simpa using h
      have hk' : k ∈ keysOf rest := by
        simp only [keysOf, List.map_cons, List.mem_cons] at hk
        rcases hk with hk | hk
        · exact absurd hk.symm hne
        · exact hk
      have hnd' : (keysOf rest).Nodup := by
        simp only [keysOf, List.map_cons, List.nodup_cons] at hnd
        exact hnd.2
      have : getD (kv :: rest) k d = getD rest k d := by simp [getD, List.find?, h]
      rw [this]
      exact List.mem_cons_of_mem _ (ih hnd' hk')

theorem filter_length_mono {α : Type} (l : List α) (p q : α → Bool)
    (h : ∀ x ∈ l, p x = true → q x = true) :
    (l.filter p).length ≤ (l.filter q).length := by
  induction l with
  | nil => simp
  | cons x rest ih =>
    have ih' := ih (fun y hy => h y (by simp [hy]))
    by_cases hp : p x = true
    · have hq := h x (by simp) hp
      rw [List.filter_cons, List.filter_cons, if_pos hp, if_pos hq,
        List.length_cons, List.length_cons]
      omega
    · by_cases hq : q x = true
      · rw [List.filter_cons, List.filter_cons, if_neg hp, if_pos hq, List.length_cons]
        omega
      · rw [List.filter_cons, List.filter_cons, if_neg hp, if_neg hq]
        exact ih'

theorem filter_length_split {α : Type} (l : List α) (p r : α → Bool) :
    (l.filter p).length =
      (l.filter (fun x => p x && r x)).length +
      (l.filter (fun x => p x && !r x)).length := by
  induction l with
  | nil => simp
  | cons x rest ih =>
    by_cases hp : p x = true
    · by_cases hr : r x = true
      · rw [List.filter_cons, List.filter_cons, List.filter_cons, if_pos hp,
          if_pos (show (p x && r x) = true by simp [hp, hr]),
          if_neg (show ¬ (p x && !r x) = true by simp [hp, hr]),
          List.length_cons, List.length_cons]
        omega
      · rw [List.filter_cons, List.filter_cons, List.filter_cons, if_pos hp,
          if_neg (show ¬ (p x && r x) = true by simp [hp, hr]),
          if_pos (show (p x && !r x) = true by simp [hp, hr]),
          List.length_cons, List.length_cons]
        omega
    · rw [List.filter_cons, List.filter_cons, List.filter_cons, if_neg hp,
        if_neg (show ¬ (p x && r x) = true by simp [hp]),
        if_neg (show ¬ (p x && !r x) = true by simp [hp])]
      exact ih

theorem countPos_cons (kv : String × Int) (rest : List (String × Int)) :
    countPos (kv :: rest) = (if 0 < kv.2 then 1 else 0) + countPos rest := by
  simp only [countPos, List.filter_cons]
  by_cases h : 0 < kv.2
  · rw [if_pos (by simpa using h), if_pos h, List.length_cons]
    omega
  · rw [if_neg (by simpa using h), if_neg h]
    omega

theorem countPos_setKey_decr (deg : List (String × Int)) (d : String) :
    (if getD deg d 0 - 1 = 0 then 1 else 0) + countPos (setKey deg d (getD deg d 0 - 1))
      ≤ countPos deg := by
  induction deg with
  | nil =>
    simp [getD, List.find?, setKey, countPos]
  | cons kv rest ih =>
    by_cases h : kv.1 == d
    · have hv : getD (kv :: rest) d 0 = kv.2 := by simp [getD, List.find?, h]
      rw [hv]
      simp only [setKey, h, if_true]
      rw [countPos_cons, countPos_cons]
      split_ifs <;> omega
    · have hv : getD (kv :: rest) d 0 = getD rest d 0 := by
        simp [getD, List.find?, h]
      rw [hv]
      simp only [setKey, h, Bool.false_eq_true, if_false]
      rw [countPos_cons, countPos_cons]
      split_ifs at ih ⊢ <;> omega

theorem processDeps_measure (ds : List String) (deg : List (String × Int)) :
    (processDeps ds deg).2.length + countPos (processDeps ds deg).1 ≤ countPos deg := by
  induction ds generalizing deg with
  | nil => simp [processDeps]
  | cons d rest ih =>
    simp only [processDeps]
    have hstep := countPos_setKey_decr deg d
    have hrest := ih (setKey deg d (getD deg d 0 - 1))
    split_ifs at hstep ⊢ <;>
      first
        | (simp only [List.length_cons]; omega)
        | omega

theorem processDeps_deg (ds : List String) (deg : List (String × Int)) (h : String) :
    getD (processDeps ds deg).1 h 0 = getD deg h 0 - (ds.count h : Int) := by
  induction ds generalizing deg with
  | nil => simp [processDeps]
  | cons d rest ih =>
    simp only [processDeps]
    rw [ih]
    by_cases hd : d = h
    · subst hd
      rw [getD_setKey_self]
      have : (d :: rest).count d = rest.count d + 1 := by
        simp [List.count_cons]
      rw [this]
      push_cast
      ring
    · rw [getD_setKey_other _ _ _ _ _ hd]
      have : (d :: rest).count h = rest.count h := by
        simp [List.count_cons, hd]
      rw [this]

theorem processDeps_sub (ds : List String) (deg : List (String × Int)) :
    ∀ d ∈ (processDeps ds deg).2, d ∈ ds := by
  induction ds generalizing deg with
  | nil => simp [processDeps]
  | cons e rest ih =>
    intro d hd
    simp only [processDeps] at hd
    by_cases h0 : getD deg e 0 - 1 = 0
    · rw [if_pos h0] at hd
      rcases List.mem_cons.mp hd with hd | hd
      · simp [hd]
      · exact List.mem_cons_of_mem _ (ih _ _ hd)
    · rw [if_neg h0] at hd
      exact List.mem_cons_of_mem _ (ih _ _ hd)

theorem count_shift (e : String) (rest : List String) (deg : List (String × Int))
    (hcnt : ∀ x, ((e :: rest).count x : Int) ≤ getD deg x 0) :
    ∀ x, (rest.count x : Int) ≤ getD (setKey deg e (getD deg e 0 - 1)) x 0 := by
  intro x
  by_cases hx : e = x
  · subst hx
    rw [getD_setKey_self]
    have h1 := hcnt e
    have h2 : (e :: rest).count e = rest.count e + 1 := by
      simp [List.count_cons]
    rw [h2] at h1
    push_cast at h1
    omega
  · rw [getD_setKey_other _ _ _ _ _ hx]
    have h1 := hcnt x
    have hne : (e == x) = false := beq_eq_false_iff_ne.mpr hx
    have h2 : (e :: rest).count x = rest.count x := by
      rw [List.count_cons, hne]
      simp
    rw [h2] at h1
    exact h1

theorem processDeps_mem (ds : List String) (deg : List (String × Int))
    (hcnt : ∀ x, (ds.count x : Int) ≤ getD deg x 0) (d : String) :
    d ∈ (processDeps ds deg).2 ↔ d ∈ ds ∧ getD deg d 0 = (ds.count d : Int) := by
  induction ds generalizing deg with
  | nil => simp [processDeps]
  | cons e rest ih =>
    have hcnt' := count_shift e rest deg hcnt
    have ihx := ih (setKey deg e (getD deg e 0 - 1)) hcnt'
    simp only [processDeps]
    by_cases hd : d = e
    · subst hd
      have hgd : getD (setKey deg d (getD deg d 0 - 1)) d 0 = getD deg d 0 - 1 :=
        getD_setKey_self _ _ _ _
      rw [hgd] at ihx
      have hcd : (d :: rest).count d = rest.count d + 1 := by
        simp [List.count_cons]
      rw [hcd]
      by_cases h0 : getD deg d 0 - 1 = 0
      · rw [if_pos h0]
        have hz : (rest.count d : Int) = 0 := by
          have h1 := hcnt d
          rw [hcd] at h1
          push_cast at h1
          omega
        constructor
        · intro _
          refine ⟨by simp, ?_⟩
          push_cast
          omega
        · intro _
          simp
      · rw [if_neg h0]
        rw [ihx]
        constructor
        · rintro ⟨hmem, heq⟩
          refine ⟨by simp, ?_⟩
          push_cast
          omega
        · rintro ⟨_, heq⟩
          have hrc : getD deg d 0 - 1 = (rest.count d : Int) := by
            push_cast at heq
            omega
          refine ⟨?_, hrc⟩
          by_cases hmem : d ∈ rest
          · exact hmem
          · exfalso
            have hz : rest.count d = 0 := List.count_eq_zero.mpr hmem
            rw [hz] at hrc
            simp at hrc
            omega
    · have hgd : getD (setKey deg e (getD deg e 0 - 1)) d 0 = getD deg d 0 := by
        rw [getD_setKey_other]
        exact fun he => hd he.symm
      rw [hgd] at ihx
      have hne : (e == d) = false := beq_eq_false_iff_ne.mpr (fun hh => hd hh.symm)
      have hcd : (e :: rest).count d = rest.count d := by
        rw [List.count_cons, hne]
        simp
      rw [hcd]
      by_cases h0 : getD deg e 0 - 1 = 0
      · rw [if_pos h0]
        constructor
        · intro hmem
          rcases List.mem_cons.mp hmem with h | h
          · exact absurd h hd
          · have := ihx.mp h
            exact ⟨List.mem_cons_of_mem _ this.1, this.2⟩
        · rintro ⟨hmem, heq⟩
          rcases List.mem_cons.mp hmem with h | h
          · exact absurd h hd
          · exact List.mem_cons_of_mem _ (ihx.mpr ⟨h, heq⟩)
      · rw [if_neg h0]
        rw [ihx]
        constructor
        · rintro ⟨hm, he⟩
          exact ⟨List.mem_cons_of_mem _ hm, he⟩
        · rintro ⟨hm, he⟩
          rcases List.mem_cons.mp hm with h | h
          · exact absurd h hd
          · exact ⟨h, he⟩

theorem processDeps_nodup (ds : List String) (deg : List (String × Int))
    (hcnt : ∀ x, (ds.count x : Int) ≤ getD deg x 0) :
    (processDeps ds deg).2.Nodup := by
  induction ds generalizing deg with
  | nil => simp [processDeps]
  | cons e rest ih =>
    have hcnt' := count_shift e rest deg hcnt
    have ihx := ih (setKey deg e (getD deg e 0 - 1)) hcnt'
    simp only [processDeps]
    by_cases h0 : getD deg e 0 - 1 = 0
    · rw [if_pos h0]
      refine List.nodup_cons.mpr ⟨?_, ihx⟩
      intro hmem
      have hc := (processDeps_mem rest _ hcnt' e).mp hmem
      rw [getD_setKey_self] at hc
      have hz : (rest.count e : Int) = 0 := by omega
      have hz' : rest.count e = 0 := by exact_mod_cast hz
      exact (List.count_eq_zero.mp hz') hc.1
    · rw [if_neg h0]
      exact ihx

theorem keysOf_append {α : Type} (m n : List (String × α)) :
    keysOf (m ++ n) = keysOf m ++ keysOf n := by
  simp [keysOf]

theorem buildDeg_getD (edges : List (String × String))
    (acc : List (String × List String) × List (String × Int)) (h : String) :
    getD ((edges.foldl addEdge acc).2) h 0 =
      getD acc.2 h 0 + ((edges.filter (fun e => e.2 == h)).length : Int) := by
  induction edges generalizing acc with
  | nil => simp
  | cons e rest ih =>
    rw [List.foldl_cons, ih]
    by_cases he : e.2 = h
    · have hb : (e.2 == h) = true := beq_iff_eq.mpr he
      have : getD (addEdge acc e).2 h 0 = getD acc.2 h 0 + 1 := by
        simp only [addEdge]
        rw [← he, getD_setKey_self]
      rw [this, List.filter_cons, if_pos hb, List.length_cons]
      push_cast
      ring
    · have hb : (e.2 == h) = false := beq_eq_false_iff_ne.mpr he
      have : getD (addEdge acc e).2 h 0 = getD acc.2 h 0 := by
        simp only [addEdge]
        rw [getD_setKey_other _ _ _ _ _ he]
      rw [this, List.filter_cons, if_neg (by simp [hb])]

theorem buildAdj_getD (edges : List (String × String))
    (acc : List (String × List String) × List (String × Int)) (u : String) :
    getD ((edges.foldl addEdge acc).1) u [] =
      getD acc.1 u [] ++ (edges.filter (fun e => e.1 == u)).map (·.2) := by
  induction edges generalizing acc with
  | nil => simp
  | cons e rest ih =>
    rw [List.foldl_cons, ih]
    by_cases he : e.1 = u
    · have hb : (e.1 == u) = true := beq_iff_eq.mpr he
      have : getD (addEdge acc e).1 u [] = getD acc.1 u [] ++ [e.2] := by
        simp only [addEdge]
        rw [← he, getD_setKey_self]
      rw [this, List.filter_cons, if_pos hb, List.map_cons]
      simp
    · have hb : (e.1 == u) = false := beq_eq_false_iff_ne.mpr he
      have : getD (addEdge acc e).1 u [] = getD acc.1 u [] := by
        simp only [addEdge]
        rw [getD_setKey_other _ _ _ _ _ he]
      rw [this, List.filter_cons, if_neg (by simp [hb])]

theorem buildDeg_keys (edges : List (String × String))
    (acc : List (String × List String) × List (String × Int))
    (htgt : ∀ e ∈ edges, e.2 ∈ keysOf acc.2) :
    keysOf ((edges.foldl addEdge acc).2) = keysOf acc.2 := by
  induction edges generalizing acc with
  | nil => simp
  | cons e rest ih =>
    rw [List.foldl_cons]
    have hk : keysOf (addEdge acc e).2 = keysOf acc.2 := by
      simp only [addEdge]
      exact keysOf_setKey_mem _ _ _ (htgt e (by simp))
    rw [ih (addEdge acc e) (fun e' he' => by rw [hk]; exact htgt e' (by simp [he']))]
    exact hk

theorem seedAux_spec (scripts : List EnqueuedScript)
    (acc : List (String × List String) × List (String × Int))
    (hlock : keysOf acc.1 = keysOf acc.2)
    (hnd : (keysOf acc.2).Nodup)
    (hz : ∀ kv ∈ acc.2, kv.2 = (0 : Int)) :
    keysOf (scripts.foldl seedStep acc).1 = keysOf (scripts.foldl seedStep acc).2 ∧
    (keysOf (scripts.foldl seedStep acc).2).Nodup ∧
    (∀ kv ∈ (scripts.foldl seedStep acc).2, kv.2 = (0 : Int)) ∧
    (∀ h, h ∈ keysOf (scripts.foldl seedStep acc).2 ↔
      h ∈ keysOf acc.2 ∨ h ∈ truthyHandles scripts) := by
  induction scripts generalizing acc with
  | nil =>
    refine ⟨hlock, hnd, hz, ?_⟩
    simp [truthyHandles]
  | cons s rest ih =>
    rw [List.foldl_cons]
    by_cases hg : (jsTruthy s.handle && !hasKey acc.1 (s.handle.getD "")) = true
    · have hstep : seedStep acc s =
          (acc.1 ++ [(s.handle.getD "", [])], acc.2 ++ [(s.handle.getD "", 0)]) := by
        simp only [seedStep, if_pos hg]
      have htr : jsTruthy s.handle = true := by
        simpa using (Bool.and_elim_left hg)
      have hnk : hasKey acc.1 (s.handle.getD "") = false := by
        have := Bool.and_elim_right hg
        simpa using this
      have hnk2 : s.handle.getD "" ∉ keysOf acc.2 := by
        rw [← hlock]
        intro hmem
        rw [← hasKey_iff_mem] at hmem
        rw [hnk] at hmem
        exact absurd hmem (by simp)
      have hlock' : keysOf (seedStep acc s).1 = keysOf (seedStep acc s).2 := by
        rw [hstep]
        show keysOf (acc.1 ++ _) = keysOf (acc.2 ++ _)
        rw [keysOf_append, keysOf_append, hlock]
        simp [keysOf]
      have hnd' : (keysOf (seedStep acc s).2).Nodup := by
        rw [hstep]
        show (keysOf (acc.2 ++ _)).Nodup
        rw [keysOf_append]
        refine List.Nodup.append hnd (by simp [keysOf]) ?_
        intro a ha hb
        simp only [keysOf, List.map_cons, List.map_nil, List.mem_singleton] at hb
        subst hb
        exact hnk2 ha
      have hz' : ∀ kv ∈ (seedStep acc s).2, kv.2 = (0 : Int) := by
        rw [hstep]
        intro kv hkv
        rcases List.mem_append.mp hkv with hkv | hkv
        · exact hz kv hkv
        · simp only [List.mem_singleton] at hkv
          rw [hkv]
      have := ih (seedStep acc s) hlock' hnd' hz'
      refine ⟨this.1, this.2.1, this.2.2.1, ?_⟩
      intro h
      rw [(this.2.2.2 h)]
      have hkeys : keysOf (seedStep acc s).2 = keysOf acc.2 ++ [s.handle.getD ""] := by
        rw [hstep]
        show keysOf (acc.2 ++ _) = _
        rw [keysOf_append]
        simp [keysOf]
      rw [hkeys]
      have hth : truthyHandles (s :: rest) = s.handle.getD "" :: truthyHandles rest := by
        simp [truthyHandles, List.filter_cons, htr]
      rw [hth]
      simp only [List.mem_append, List.mem_singleton, List.mem_cons]
      tauto
    · have hstep : seedStep acc s = acc := by
        simp only [seedStep, hg]
        simp
      rw [hstep]
      have := ih acc hlock hnd hz
      refine ⟨this.1, this.2.1, this.2.2.1, ?_⟩
      intro h
      rw [(this.2.2.2 h)]
      by_cases htr : jsTruthy s.handle = true
      · have hhk : hasKey acc.1 (s.handle.getD "") = true := by
          by_contra hc
          have : hasKey acc.1 (s.handle.getD "") = false := by
            cases hx : hasKey acc.1 (s.handle.getD "")
            · rfl
            · exact absurd hx hc
          rw [htr, this] at hg
          exact hg rfl
        have hmem : s.handle.getD "" ∈ keysOf acc.2 := by
          rw [← hlock]
          exact (hasKey_iff_mem _ _).mp hhk
        have hth : truthyHandles (s :: rest) = s.handle.getD "" :: truthyHandles rest := by
          simp [truthyHandles, List.filter_cons, htr]
        rw [hth]
        simp only [List.mem_cons]
        constructor
        · intro hh
          rcases hh with hh | hh
          · exact Or.inl hh
          · exact Or.inr (Or.inr hh)
        · intro hh
          rcases hh with hh | hh | hh
          · exact Or.inl hh
          · rw [hh]
            exact Or.inl hmem
          · exact Or.inr hh
      · have hth : truthyHandles (s :: rest) = truthyHandles rest := by
          have : jsTruthy s.handle = false := by
            cases hx : jsTruthy s.handle
            · rfl
            · exact absurd hx htr
          simp [truthyHandles, List.filter_cons, this]
        rw [hth]

theorem count_map_snd (l : List (String × String)) (h : String) :
    (l.map (·.2)).count h = (l.filter (fun e => e.2 == h)).length := by
  induction l with
  | nil => simp
  | cons e rest ih =>
    rw [List.map_cons, List.count_cons, List.filter_cons, ih]
    by_cases he : e.2 = h
    · simp [he]
    · have hb : (e.2 == h) = false := beq_eq_false_iff_ne.mpr he
      have hb2 : (h == e.2) = false := beq_eq_false_iff_ne.mpr (fun hh => he hh.symm)
      simp [hb, hb2]

theorem kahn_step (edges : List (String × String)) (keyP : String → Prop)
    (adj : List (String × List String))
    (hE : ∀ e ∈ edges, keyP e.1 ∧ keyP e.2)
    (adjOK : ∀ u, getD adj u [] = (edges.filter (fun e => e.1 == u)).map (·.2))
    (cur : String) (qrest : List String) (deg : List (String × Int)) (out : List String)
    (inv : KInv edges keyP (cur :: qrest) deg out) :
    KInv edges keyP (qrest ++ (processDeps (getD adj cur []) deg).2)
      (processDeps (getD adj cur []) deg).1 (out ++ [cur]) := by
  rw [adjOK cur]
  set ds : List String := (edges.filter (fun e => e.1 == cur)).map (·.2) with hds
  obtain ⟨hnOut, hnQ, hdisj⟩ := List.nodup_append.mp inv.nodup
  have hcurout : cur ∉ out := fun hmem => hdisj hmem (by simp)
  have hdcount : ∀ x, ds.count x = (edges.filter (fun e => e.1 == cur && e.2 == x)).length := by
    intro x
    rw [hds, count_map_snd, List.filter_filter]
    apply congrArg
    apply List.filter_congr
    intro e _
    rw [Bool.and_comm]
  have hcnt : ∀ x, (ds.count x : Int) ≤ getD deg x 0 := by
    intro x
    rw [inv.degEq x, hdcount x]
    have hm := filter_length_mono edges (fun e => e.1 == cur && e.2 == x)
      (fun e => e.2 == x && !(decide (e.1 ∈ out))) ?_
    · unfold cntOut
      exact_mod_cast hm
    · intro e _ hpe
      have h1 : e.1 = cur := by
        have := Bool.and_elim_left hpe
        simpa using this
      have h2 : (e.2 == x) = true := Bool.and_elim_right hpe
      simp [h2, h1, hcurout]
  have pdDeg := processDeps_deg ds deg
  have pdMem := processDeps_mem ds deg hcnt
  have pdNodup := processDeps_nodup ds deg hcnt
  have hmemcnt : ∀ h ∈ out ++ cur :: qrest, (ds.count h : Int) = 0 := by
    intro h hmem
    have h0 := inv.memZero h hmem
    have h1 := hcnt h
    have h2 : (0 : Int) ≤ (ds.count h : Int) := Int.natCast_nonneg _
    omega
  have hnewNotOld : ∀ d ∈ (processDeps ds deg).2, d ∉ out ++ cur :: qrest := by
    intro d hd hmem
    have hc := (pdMem d).mp hd
    have h0 := inv.memZero d hmem
    have hpos : 0 < ds.count d := List.count_pos_iff.mpr hc.1
    have := hc.2
    omega
  have hgetL : ∀ (i : Nat) (hi : i < out.length) (hi' : i < (out ++ [cur]).length),
      (out ++ [cur]).get ⟨i, hi'⟩ = out.get ⟨i, hi⟩ := by
    intro i hi hi'
    exact List.get_append i hi
  refine ⟨?_, ?_, ?_, ?_, ?_, ?_, ?_⟩
  · -- nodup
    have hre : (out ++ [cur]) ++ (qrest ++ (processDeps ds deg).2) =
        (out ++ cur :: qrest) ++ (processDeps ds deg).2 := by simp
    rw [hre]
    refine List.nodup_append.mpr ⟨inv.nodup, pdNodup, ?_⟩
    intro a ha hb
    exact hnewNotOld a hb ha
  · -- degEq
    intro h
    rw [pdDeg h, inv.degEq h, hdcount h]
    have hsplit := filter_length_split edges
      (fun e => e.2 == h && !(decide (e.1 ∈ out))) (fun e => e.1 == cur)
    have he1 : edges.filter (fun e => (e.2 == h && !(decide (e.1 ∈ out))) && (e.1 == cur)) =
        edges.filter (fun e => e.1 == cur && e.2 == h) := by
      apply List.filter_congr
      intro e _
      by_cases hc : e.1 = cur
      · simp [hc, hcurout]
      · have : (e.1 == cur) = false := beq_eq_false_iff_ne.mpr hc
        simp [this]
    have he2 : edges.filter (fun e => (e.2 == h && !(decide (e.1 ∈ out))) && !(e.1 == cur)) =
        edges.filter (fun e => e.2 == h && !(decide (e.1 ∈ out ++ [cur]))) := by
      apply List.filter_congr
      intro e _
      by_cases hc : e.1 = cur
      · have hb : (e.1 == cur) = true := beq_iff_eq.mpr hc
        have hm : e.1 ∈ out ++ [cur] := by simp [hc]
        simp [hb, hm]
      · have hb : (e.1 == cur) = false := beq_eq_false_iff_ne.mpr hc
        have hm : (e.1 ∈ out ++ [cur]) ↔ (e.1 ∈ out) := by
          simp [List.mem_append, hc]
        by_cases ho : e.1 ∈ out
        · simp [hb, ho, hm.mpr ho]
        · have : e.1 ∉ out ++ [cur] := fun hx => ho (hm.mp hx)
          simp [hb, ho, this]
    rw [he1, he2] at hsplit
    unfold cntOut
    omega
  · -- memZero
    intro h hmem
    rw [pdDeg h]
    have hcases : h ∈ out ++ cur :: qrest ∨ h ∈ (processDeps ds deg).2 := by
      simp only [List.mem_append, List.mem_cons, List.mem_singleton] at hmem
      simp only [List.mem_append, List.mem_cons]
      tauto
    rcases hcases with hold | hnew
    · rw [inv.memZero h hold, hmemcnt h hold]
      omega
    · have hc := (pdMem h).mp hnew
      rw [hc.2]
      omega
  · -- zeroMem
    intro h hkey h0
    rw [pdDeg h] at h0
    by_cases hz : ds.count h = 0
    · have hgz : getD deg h 0 = 0 := by
        rw [hz] at h0
        simpa using h0
      have hold := inv.zeroMem h hkey hgz
      simp only [List.mem_append, List.mem_cons, List.mem_singleton] at hold ⊢
      tauto
    · have hmem : h ∈ ds := by
        by_contra hc
        exact hz (List.count_eq_zero.mpr hc)
      have hgc : getD deg h 0 = (ds.count h : Int) := by omega
      have hq := (pdMem h).mpr ⟨hmem, hgc⟩
      simp only [List.mem_append, List.mem_cons, List.mem_singleton]
      tauto
  · -- outP
    intro h hmem
    rcases List.mem_append.mp hmem with hx | hx
    · exact inv.outP h hx
    · simp only [List.mem_singleton] at hx
      rw [hx]
      exact inv.qP cur (by simp)
  · -- qP
    intro h hmem
    rcases List.mem_append.mp hmem with hx | hx
    · exact inv.qP h (by simp [hx])
    · have hsub := processDeps_sub ds deg h hx
      rw [hds] at hsub
      rcases List.mem_map.mp hsub with ⟨e, hef, he2⟩
      have hee := List.mem_filter.mp hef
      rw [← he2]
      exact (hE e hee.1).2
  · -- ordInv
    intro j hj u hedge
    rcases Nat.lt_or_ge j out.length with hjo | hjo
    · rw [hgetL j hjo hj] at hedge
      obtain ⟨i, hij, hgi⟩ := inv.ordInv j hjo u hedge
      refine ⟨i, hij, ?_⟩
      rw [hgetL i (Nat.lt_trans hij hjo) _]
      exact hgi
    · have hjeq : j = out.length := by
        have : j < (out ++ [cur]).length := hj
        simp only [List.length_append, List.length_singleton] at this
        omega
      subst hjeq
      have hval : (out ++ [cur]).get ⟨out.length, hj⟩ = cur := by
        rw [List.get_eq_getElem]
        rw [List.getElem_append_right (Nat.le_refl _)]
        simp
      rw [hval] at hedge
      have h0 : getD deg cur 0 = 0 := inv.memZero cur (by simp)
      have hc : cntOut edges out cur = 0 := by
        have := inv.degEq cur
        omega
      have hu : u ∈ out := by
        by_contra hu
        have hmem : (u, cur) ∈ edges.filter
            (fun e => e.2 == cur && !(decide (e.1 ∈ out))) := by
          apply List.mem_filter.mpr
          refine ⟨hedge, ?_⟩
          simp [hu]
        have hne : edges.filter (fun e => e.2 == cur && !(decide (e.1 ∈ out))) ≠ [] :=
          List.ne_nil_of_mem hmem
        have hpos : 0 < cntOut edges out cur := by
          unfold cntOut
          exact List.length_pos.mpr hne
        omega
      obtain ⟨⟨i, hi⟩, hio⟩ := List.mem_iff_get.mp hu
      refine ⟨i, hi, ?_⟩
      rw [hgetL i hi _]
      exact hio

theorem kahnLoopF_spec (edges : List (String × String)) (keyP : String → Prop)
    (adj : List (String × List String))
    (hE : ∀ e ∈ edges, keyP e.1 ∧ keyP e.2)
    (adjOK : ∀ u, getD adj u [] = (edges.filter (fun e => e.1 == u)).map (·.2))
    (fuel : Nat) (q : List String) (deg : List (String × Int)) (out : List String)
    (hfuel : q.length + countPos deg ≤ fuel)
    (inv : KInv edges keyP q deg out) :
    ∃ degF, KInv edges keyP [] degF (kahnLoop adj fuel q deg out) := by
  induction fuel generalizing q deg out with
  | zero =>
    have hq : q = [] := by
      have : q.length = 0 := by omega
      exact List.length_eq_zero.mp this
    subst hq
    exact ⟨deg, inv⟩
  | succ fuel ih =>
    match q with
    | [] => exact ⟨deg, inv⟩
    | cur :: qrest =>
      have hm := processDeps_measure (getD adj cur []) deg
      have hfuel' : (qrest ++ (processDeps (getD adj cur []) deg).2).length +
          countPos (processDeps (getD adj cur []) deg).1 ≤ fuel := by
        rw [List.length_append]
        simp only [List.length_cons] at hfuel
        omega
      exact ih _ _ _ hfuel' (kahn_step edges keyP adj hE adjOK cur qrest deg out inv)

theorem KInv_final_missing (edges : List (String × String)) (keyP : String → Prop)
    (degF : List (String × Int)) (L : List String)
    (inv : KInv edges keyP [] degF L) :
    ∀ h, keyP h → h ∉ L → ∃ u, (u, h) ∈ edges ∧ u ∉ L := by
  intro h hk hnot
  have hne : getD degF h 0 ≠ 0 := by
    intro h0
    have := inv.zeroMem h hk h0
    simp only [List.append_nil] at this
    exact hnot this
  have hd := inv.degEq h
  have hcz : cntOut edges L h ≠ 0 := by
    intro hc
    rw [hc] at hd
    exact hne (by simpa using hd)
  have hfil : edges.filter (fun e => e.2 == h && !(decide (e.1 ∈ L))) ≠ [] := by
    intro hc
    apply hcz
    unfold cntOut
    rw [hc]
    rfl
  obtain ⟨e, hmem⟩ := List.exists_mem_of_ne_nil _ hfil
  have he := List.mem_filter.mp hmem
  have h2 : e.2 = h := by
    have := Bool.and_elim_left he.2
    simpa using this
  have h1 : e.1 ∉ L := by
    have := Bool.and_elim_right he.2
    simpa using this
  refine ⟨e.1, ?_, h1⟩
  rw [← h2]
  exact he.1

theorem exists_min_rank (rank : String → Nat) (R : List String) (hne : R ≠ []) :
    ∃ h ∈ R, ∀ h' ∈ R, rank h ≤ rank h' := by
  induction R with
  | nil => exact absurd rfl hne
  | cons a rest ih =>
    by_cases hr : rest = []
    · subst hr
      exact ⟨a, by simp, by simp⟩
    · obtain ⟨b, hb, hmin⟩ := ih hr
      by_cases hab : rank a ≤ rank b
      · refine ⟨a, by simp, ?_⟩
        intro h' hh'
        rcases List.mem_cons.mp hh' with hh' | hh'
        · rw [hh']
        · exact Nat.le_trans hab (hmin h' hh')
      · refine ⟨b, by simp [hb], ?_⟩
        intro h' hh'
        rcases List.mem_cons.mp hh' with hh' | hh'
        · rw [hh']
          omega
        · exact hmin h' hh'

theorem kahn_all_of_acyclic (edges : List (String × String)) (K : List String)
    (rank : String → Nat)
    (hrank : ∀ e ∈ edges, rank e.1 < rank e.2)
    (hEK : ∀ e ∈ edges, e.1 ∈ K)
    (L : List String)
    (hmiss : ∀ h ∈ K, h ∉ L → ∃ u, (u, h) ∈ edges ∧ u ∉ L) :
    ∀ h ∈ K, h ∈ L := by
  by_contra hc
  push_neg at hc
  obtain ⟨h0, hh0, hh0L⟩ := hc
  have hRne : K.filter (fun h => !(decide (h ∈ L))) ≠ [] := by
    intro hnil
    have : h0 ∈ K.filter (fun h => !(decide (h ∈ L))) :=
      List.mem_filter.mpr ⟨hh0, by simp [hh0L]⟩
    rw [hnil] at this
    exact absurd this (List.not_mem_nil _)
  obtain ⟨hm, hmR, hmin⟩ := exists_min_rank rank _ hRne
  have hmf := List.mem_filter.mp hmR
  have hmK : hm ∈ K := hmf.1
  have hmL : hm ∉ L := by
    have := hmf.2
    simpa using this
  obtain ⟨u, hu, huL⟩ := hmiss hm hmK hmL
  have huK : u ∈ K := hEK (u, hm) hu
  have huR : u ∈ K.filter (fun h => !(decide (h ∈ L))) :=
    List.mem_filter.mpr ⟨huK, by simp [huL]⟩
  have hle := hmin u huR
  have hlt := hrank (u, hm) hu
  simp only at hlt
  omega

theorem truthy_handle_beq (s : EnqueuedScript) (ht : jsTruthy s.handle = true) :
    (s.handle == some (s.handle.getD "")) = true := by
  cases hx : s.handle with
  | none => rw [hx] at ht; exact absurd ht (by simp [jsTruthy])
  | some str => simp [hx]

theorem mem_truthyHandles (scripts : List EnqueuedScript) (h : String) :
    h ∈ truthyHandles scripts ↔
      ∃ s ∈ scripts, jsTruthy s.handle = true ∧ s.handle = some h := by
  unfold truthyHandles
  rw [List.mem_map]
  constructor
  · rintro ⟨s, hsf, hval⟩
    have hs := List.mem_filter.mp hsf
    refine ⟨s, hs.1, hs.2, ?_⟩
    cases hx : s.handle with
    | none => rw [hx] at hs; exact absurd hs.2 (by simp [jsTruthy])
    | some str =>
      rw [hx] at hval
      simp only [Option.getD_some] at hval
      rw [hval]
  · rintro ⟨s, hsm, ht, hh⟩
    refine ⟨s, List.mem_filter.mpr ⟨hsm, ht⟩, ?_⟩
    rw [hh]
    rfl

theorem scriptMapGet_aux_none (h : String) (l : List EnqueuedScript)
    (acc : Option EnqueuedScript)
    (hno : ∀ t ∈ l, (jsTruthy t.handle && (t.handle == some h)) = false) :
    l.foldl (fun acc s => if jsTruthy s.handle && (s.handle == some h) then some s else acc)
      acc = acc := by
  induction l generalizing acc with
  | nil => rfl
  | cons t rest ih =>
    rw [List.foldl_cons]
    rw [if_neg (by rw [hno t (by simp)]; simp)]
    exact ih acc (fun t' ht' => hno t' (by simp [ht']))

theorem scriptMapGet_aux_some (h : String) (l : List EnqueuedScript)
    (acc : Option EnqueuedScript) (s : EnqueuedScript)
    (hres : l.foldl
      (fun acc s => if jsTruthy s.handle && (s.handle == some h) then some s else acc)
      acc = some s) :
    acc = some s ∨ (s ∈ l ∧ jsTruthy s.handle = true ∧ s.handle = some h) := by
  induction l generalizing acc with
  | nil => exact Or.inl hres
  | cons t rest ih =>
    rw [List.foldl_cons] at hres
    rcases ih _ hres with hx | hx
    · by_cases hc : (jsTruthy t.handle && (t.handle == some h)) = true
      · rw [if_pos hc] at hx
        have ht := Bool.and_elim_left hc
        have hb := Bool.and_elim_right hc
        right
        have hts : t = s := by
          injection hx
        subst hts
        exact ⟨by simp, ht, by simpa using hb⟩
      · rw [if_neg hc] at hx
        exact Or.inl hx
    · exact Or.inr ⟨by simp [hx.1], hx.2.1, hx.2.2⟩

theorem scriptMapGet_aux_mono (h : String) (l : List EnqueuedScript)
    (acc : Option EnqueuedScript) (hs : acc.isSome = true) :
    (l.foldl
      (fun acc s => if jsTruthy s.handle && (s.handle == some h) then some s else acc)
      acc).isSome = true := by
  induction l generalizing acc with
  | nil => exact hs
  | cons t rest ih =>
    rw [List.foldl_cons]
    by_cases hc : (jsTruthy t.handle && (t.handle == some h)) = true
    · rw [if_pos hc]
      exact ih _ (by simp)
    · rw [if_neg hc]
      exact ih _ hs

theorem scriptMapGet_isSome_iff (scripts : List EnqueuedScript) (h : String) :
    (scriptMapGet scripts h).isSome = true ↔ h ∈ truthyHandles scripts := by
  constructor
  · intro hx
    obtain ⟨s, hs⟩ := Option.isSome_iff_exists.mp hx
    rcases scriptMapGet_aux_some h scripts none s hs with hc | hc
    · exact absurd hc (by simp)
    · exact (mem_truthyHandles scripts h).mpr ⟨s, hc.1, hc.2.1, hc.2.2⟩
  · intro hx
    obtain ⟨s, hsm, ht, hh⟩ := (mem_truthyHandles scripts h).mp hx
    obtain ⟨l1, l2, rfl⟩ := List.append_of_mem hsm
    unfold scriptMapGet
    rw [List.foldl_append, List.foldl_cons]
    rw [if_pos (show (jsTruthy s.handle && (s.handle == some h)) = true by rw [ht, hh]; simp)]
    exact scriptMapGet_aux_mono h l2 (some s) (by simp)

theorem scriptMapGet_eq_some (scripts : List EnqueuedScript) (h : String)
    (s : EnqueuedScript) (hres : scriptMapGet scripts h = some s) :
    s ∈ scripts ∧ jsTruthy s.handle = true ∧ s.handle = some h := by
  rcases scriptMapGet_aux_some h scripts none s hres with hc | hc
  · exact absurd hc (by simp)
  · exact hc

theorem getD_of_mem_nodup {α : Type} (m : List (String × α)) (k : String) (v : α) (d : α)
    (hmem : (k, v) ∈ m) (hnd : (keysOf m).Nodup) : getD m k d = v := by
  induction m with
  | nil => exact absurd hmem (List.not_mem_nil _)
  | cons kv rest ih =>
    have hnd' : (keysOf rest).Nodup ∧ kv.1 ∉ keysOf rest := by
      simp only [keysOf, List.map_cons, List.nodup_cons] at hnd
      exact ⟨hnd.2, hnd.1⟩
    rcases List.mem_cons.mp hmem with hx | hx
    · rw [← hx]
      simp [getD, List.find?]
    · by_cases hk : kv.1 == k
      · exfalso
        have : k ∈ keysOf rest := by
          have : (k, v).1 ∈ keysOf rest := List.mem_map.mpr ⟨(k, v), hx, rfl⟩
          simpa using this
        have hke : kv.1 = k := by simpa using hk
        rw [hke] at hnd'
        exact hnd'.2 this
      · have : getD (kv :: rest) k d = getD rest k d := by
          simp [getD, List.find?, hk]
        rw [this]
        exact ih hx hnd'.1

theorem scriptMapGet_unique (scripts : List EnqueuedScript)
    (hnd : (truthyHandles scripts).Nodup) (s : EnqueuedScript)
    (hs : s ∈ scripts) (ht : jsTruthy s.handle = true) :
    scriptMapGet scripts (s.handle.getD "") = some s := by
  induction scripts with
  | nil => exact absurd hs (List.not_mem_nil _)
  | cons t rest ih =>
    have hmem_th : ∀ u ∈ rest, jsTruthy u.handle = true →
        u.handle.getD "" ∈ truthyHandles rest := by
      intro u hu htu
      exact List.mem_map.mpr ⟨u, List.mem_filter.mpr ⟨hu, htu⟩, rfl⟩
    rcases List.mem_cons.mp hs with hst | hsr
    · subst hst
      have hcond : (jsTruthy s.handle && (s.handle == some (s.handle.getD ""))) = true := by
        rw [ht, truthy_handle_beq s ht]
        rfl
      have hth : truthyHandles (s :: rest) =
          s.handle.getD "" :: truthyHandles rest := by
        simp [truthyHandles, List.filter_cons, ht]
      have hnotrest : s.handle.getD "" ∉ truthyHandles rest := by
        rw [hth] at hnd
        exact (List.nodup_cons.mp hnd).1
      unfold scriptMapGet
      rw [List.foldl_cons, if_pos hcond]
      apply scriptMapGet_aux_none
      intro u hu
      by_cases hcu : (jsTruthy u.handle && (u.handle == some (s.handle.getD ""))) = true
      · exfalso
        have htu := Bool.and_elim_left hcu
        have hbu := Bool.and_elim_right hcu
        have hhu : u.handle = some (s.handle.getD "") := by simpa using hbu
        have : u.handle.getD "" = s.handle.getD "" := by rw [hhu]; rfl
        have := hmem_th u hu htu
        rw [hhu] at this
        simp only [Option.getD_some] at this
        exact hnotrest this
      · exact Bool.of_not_eq_true hcu
    · have hndr : (truthyHandles rest).Nodup := by
        by_cases htt : jsTruthy t.handle = true
        · have hth : truthyHandles (t :: rest) =
              t.handle.getD "" :: truthyHandles rest := by
            simp [truthyHandles, List.filter_cons, htt]
          rw [hth] at hnd
          exact (List.nodup_cons.mp hnd).2
        · have hff : jsTruthy t.handle = false := by
            cases hx : jsTruthy t.handle
            · rfl
            · exact absurd hx htt
          have hth : truthyHandles (t :: rest) = truthyHandles rest := by
            simp [truthyHandles, List.filter_cons, hff]
          rwa [hth] at hnd
      by_cases hct : (jsTruthy t.handle && (t.handle == some (s.handle.getD ""))) = true
      · exfalso
        have htt := Bool.and_elim_left hct
        have hbt := Bool.and_elim_right hct
        have hht : t.handle = some (s.handle.getD "") := by simpa using hbt
        have hth : truthyHandles (t :: rest) =
            t.handle.getD "" :: truthyHandles rest := by
          simp [truthyHandles, List.filter_cons, htt]
        rw [hth] at hnd
        have hhead : t.handle.getD "" = s.handle.getD "" := by rw [hht]; rfl
        have : s.handle.getD "" ∈ truthyHandles rest := hmem_th s hsr ht
        rw [← hhead] at this
        exact (List.nodup_cons.mp hnd).1 this
      · have hstep : scriptMapGet (t :: rest) (s.handle.getD "") =
            scriptMapGet rest (s.handle.getD "") := by
          unfold scriptMapGet
          rw [List.foldl_cons, if_neg hct]
        rw [hstep]
        exact ih hndr hsr

theorem edgeList_ends (scripts : List EnqueuedScript) :
    ∀ e ∈ edgeList scripts,
      e.1 ∈ truthyHandles scripts ∧ e.2 ∈ truthyHandles scripts := by
  intro e he
  unfold edgeList at he
  obtain ⟨s, hs, hes⟩ := List.mem_flatMap.mp he
  unfold edgesOfScript at hes
  by_cases hts : jsTruthy s.handle = true
  · rw [if_pos hts] at hes
    obtain ⟨d, hd, hde⟩ := List.mem_filterMap.mp hes
    by_cases hcd : (jsTruthy d.handle && (scriptMapGet scripts (d.handle.getD "")).isSome) = true
    · rw [if_pos hcd] at hde
      have hpe := Option.some.inj hde
      constructor
      · rw [← hpe]
        exact (scriptMapGet_isSome_iff scripts _).mp (Bool.and_elim_right hcd)
      · rw [← hpe]
        exact List.mem_map.mpr ⟨s, List.mem_filter.mpr ⟨hs, hts⟩, rfl⟩
    · rw [if_neg hcd] at hde
      exact absurd hde (by simp)
  · rw [if_neg hts] at hes
    exact absurd hes (List.not_mem_nil _)

theorem seed_spec (scripts : List EnqueuedScript) :
    keysOf (seedMaps scripts).1 = keysOf (seedMaps scripts).2 ∧
    (keysOf (seedMaps scripts).2).Nodup ∧
    (∀ kv ∈ (seedMaps scripts).2, kv.2 = (0 : Int)) ∧
    (∀ h, h ∈ keysOf (seedMaps scripts).2 ↔ h ∈ truthyHandles scripts) := by
  have hsa := seedAux_spec scripts ([], []) rfl (by simp [keysOf]) (by simp)
  refine ⟨hsa.1, hsa.2.1, hsa.2.2.1, ?_⟩
  intro h
  rw [show (seedMaps scripts) = scripts.foldl seedStep ([], []) from rfl, hsa.2.2.2 h]
  simp [keysOf]

theorem seedAux_adjVals (scripts : List EnqueuedScript)
    (acc : List (String × List String) × List (String × Int))
    (ha : ∀ kv ∈ acc.1, kv.2 = ([] : List String)) :
    ∀ kv ∈ (scripts.foldl seedStep acc).1, kv.2 = ([] : List String) := by
  induction scripts generalizing acc with
  | nil => exact ha
  | cons s rest ih =>
    rw [List.foldl_cons]
    apply ih
    intro kv hkv
    unfold seedStep at hkv
    by_cases hg : (jsTruthy s.handle && !hasKey acc.1 (s.handle.getD "")) = true
    · rw [if_pos hg] at hkv
      rcases List.mem_append.mp hkv with hx | hx
      · exact ha kv hx
      · simp only [List.mem_singleton] at hx
        rw [hx]
    · rw [if_neg hg] at hkv
      exact ha kv hkv

theorem buildGraph_deg (scripts : List EnqueuedScript) (h : String) :
    getD (buildGraph scripts).2 h 0 = (cntOut (edgeList scripts) [] h : Int) := by
  unfold buildGraph
  rw [buildDeg_getD]
  rw [getD_of_uniform _ _ _ (seed_spec scripts).2.2.1]
  have hc : cntOut (edgeList scripts) [] h =
      ((edgeList scripts).filter (fun e => e.2 == h)).length := by
    unfold cntOut
    apply congrArg
    apply List.filter_congr
    intro e _
    simp
  rw [hc]
  ring

theorem buildGraph_adj (scripts : List EnqueuedScript) (u : String) :
    getD (buildGraph scripts).1 u [] =
      ((edgeList scripts).filter (fun e => e.1 == u)).map (·.2) := by
  unfold buildGraph
  rw [buildAdj_getD]
  have hvals : ∀ kv ∈ (seedMaps scripts).1, kv.2 = ([] : List String) :=
    seedAux_adjVals scripts ([], []) (by simp)
  rw [getD_of_uniform _ _ _ hvals]
  rfl

theorem buildGraph_keys (scripts : List EnqueuedScript) :
    keysOf (buildGraph scripts).2 = keysOf (seedMaps scripts).2 := by
  unfold buildGraph
  apply buildDeg_keys
  intro e he
  rw [(seed_spec scripts).2.2.2 e.2]
  exact (edgeList_ends scripts e he).2

theorem buildGraph_keys_nodup (scripts : List EnqueuedScript) :
    (keysOf (buildGraph scripts).2).Nodup := by
  rw [buildGraph_keys]
  exact (seed_spec scripts).2.1

theorem buildGraph_keys_mem (scripts : List EnqueuedScript) (h : String) :
    h ∈ keysOf (buildGraph scripts).2 ↔ h ∈ truthyHandles scripts := by
  rw [buildGraph_keys]
  exact (seed_spec scripts).2.2.2 h

theorem kahn_base (scripts : List EnqueuedScript) :
    KInv (edgeList scripts) (· ∈ keysOf (buildGraph scripts).2)
      (queue0 scripts) (buildGraph scripts).2 [] := by
  have hnd := buildGraph_keys_nodup scripts
  have hq0sub : List.Sublist (queue0 scripts) (keysOf (buildGraph scripts).2) := by
    unfold queue0 keysOf
    exact (List.filter_sublist _).map _
  refine ⟨?_, ?_, ?_, ?_, ?_, ?_, ?_⟩
  · simpa using List.Sublist.nodup hq0sub hnd
  · intro h
    exact buildGraph_deg scripts h
  · intro h hmem
    simp only [List.nil_append] at hmem
    unfold queue0 at hmem
    obtain ⟨kv, hkvf, hkv1⟩ := List.mem_map.mp hmem
    have hkv := List.mem_filter.mp hkvf
    have hz : kv.2 = 0 := by
      have := hkv.2
      simpa using this
    have : (h, (0 : Int)) ∈ (buildGraph scripts).2 := by
      rw [← hkv1, ← hz]
      exact hkv.1
    exact getD_of_mem_nodup _ _ _ _ this hnd
  · intro h hk h0
    simp only [List.nil_append]
    have hmem : (h, getD (buildGraph scripts).2 h 0) ∈ (buildGraph scripts).2 :=
      getD_entry_of_nodup _ _ _ hnd hk
    rw [h0] at hmem
    unfold queue0
    refine List.mem_map.mpr ⟨(h, 0), ?_, rfl⟩
    exact List.mem_filter.mpr ⟨hmem, by simp⟩
  · intro h hmem
    exact absurd hmem (List.not_mem_nil _)
  · intro h hmem
    exact hq0sub.subset hmem
  · intro j hj u
    exact absurd hj (by simp)

theorem truthyHandles_cons_true (s : EnqueuedScript) (rest : List EnqueuedScript)
    (ht : jsTruthy s.handle = true) :
    truthyHandles (s :: rest) = s.handle.getD "" :: truthyHandles rest := by
  simp [truthyHandles, List.filter_cons, ht]

theorem truthyHandles_cons_false (s : EnqueuedScript) (rest : List EnqueuedScript)
    (ht : jsTruthy s.handle = false) :
    truthyHandles (s :: rest) = truthyHandles rest := by
  simp [truthyHandles, List.filter_cons, ht]

theorem containsBoolIff (l : List String) (a : String) : l.contains a = true ↔ a ∈ l :=
  List.elem_iff

theorem appendMissing_step_mem (acc : List String) (s : EnqueuedScript) (h : String) :
    h ∈ appendMissing acc s ↔
      h ∈ acc ∨ (jsTruthy s.handle = true ∧ h = s.handle.getD "") := by
  unfold appendMissing
  by_cases hg : (jsTruthy s.handle && !(acc.contains (s.handle.getD ""))) = true
  · rw [if_pos hg]
    have ht := Bool.and_elim_left hg
    simp only [List.mem_append, List.mem_singleton]
    constructor
    · rintro (hx | hx)
      · exact Or.inl hx
      · exact Or.inr ⟨ht, hx⟩
    · rintro (hx | hx)
      · exact Or.inl hx
      · exact Or.inr hx.2
  · rw [if_neg hg]
    constructor
    · exact Or.inl
    · rintro (hx | ⟨ht, hh⟩)
      · exact hx
      · rw [ht] at hg
        have : acc.contains (s.handle.getD "") = true := by
          cases hc : acc.contains (s.handle.getD "")
          · rw [hc] at hg
            exact absurd rfl hg
          · rfl
        rw [hh]
        exact List.elem_iff.mp this

theorem appendMissing_mem (l : List EnqueuedScript) (acc : List String) (h : String) :
    h ∈ l.foldl appendMissing acc ↔ h ∈ acc ∨ h ∈ truthyHandles l := by
  induction l generalizing acc with
  | nil => simp [truthyHandles]
  | cons s rest ih =>
    rw [List.foldl_cons, ih, appendMissing_step_mem]
    by_cases ht : jsTruthy s.handle = true
    · rw [truthyHandles_cons_true s rest ht]
      simp only [List.mem_cons]
      constructor
      · rintro ((hx | ⟨_, hx⟩) | hx)
        · exact Or.inl hx
        · exact Or.inr (Or.inl hx)
        · exact Or.inr (Or.inr hx)
      · rintro (hx | hx | hx)
        · exact Or.inl (Or.inl hx)
        · exact Or.inl (Or.inr ⟨ht, hx⟩)
        · exact Or.inr hx
    · have hf : jsTruthy s.handle = false := by
        cases hc : jsTruthy s.handle
        · rfl
        · exact absurd hc ht
      rw [truthyHandles_cons_false s rest hf]
      constructor
      · rintro ((hx | ⟨hx, _⟩) | hx)
        · exact Or.inl hx
        · exact absurd hx ht
        · exact Or.inr hx
      · rintro (hx | hx)
        · exact Or.inl (Or.inl hx)
        · exact Or.inr hx

theorem appendMissing_nodup (l : List EnqueuedScript) (acc : List String)
    (hnd : acc.Nodup) : (l.foldl appendMissing acc).Nodup := by
  induction l generalizing acc with
  | nil => exact hnd
  | cons s rest ih =>
    rw [List.foldl_cons]
    apply ih
    unfold appendMissing
    by_cases hg : (jsTruthy s.handle && !(acc.contains (s.handle.getD ""))) = true
    · rw [if_pos hg]
      have hnc := Bool.and_elim_right hg
      have : s.handle.getD "" ∉ acc := by
        intro hmem
        rw [(containsBoolIff acc _).mpr hmem] at hnc
        exact absurd hnc (by simp)
      refine List.Nodup.append hnd (by simp) ?_
      intro a ha hb
      simp only [List.mem_singleton] at hb
      rw [hb] at ha
      exact this ha
    · rw [if_neg hg]
      exact hnd

theorem appendMissing_noop (l : List EnqueuedScript) (acc : List String)
    (hall : ∀ h ∈ truthyHandles l, h ∈ acc) : l.foldl appendMissing acc = acc := by
  induction l generalizing acc with
  | nil => rfl
  | cons s rest ih =>
    rw [List.foldl_cons]
    have hstep : appendMissing acc s = acc := by
      unfold appendMissing
      by_cases ht : jsTruthy s.handle = true
      · have hmem : s.handle.getD "" ∈ acc := by
          apply hall
          rw [truthyHandles_cons_true s rest ht]
          simp
        rw [if_neg]
        intro hg
        have hnc := Bool.and_elim_right hg
        rw [(containsBoolIff acc _).mpr hmem] at hnc
        exact absurd hnc (by simp)
      · rw [if_neg]
        intro hg
        exact ht (Bool.and_elim_left hg)
    rw [hstep]
    apply ih
    intro h hmem
    apply hall
    by_cases ht : jsTruthy s.handle = true
    · rw [truthyHandles_cons_true s rest ht]
      exact List.mem_cons_of_mem _ hmem
    · have hf : jsTruthy s.handle = false := by
        cases hc : jsTruthy s.handle
        · rfl
        · exact absurd hc ht
      rw [truthyHandles_cons_false s rest hf]
      exact hmem

theorem kahnSorted_inv (scripts : List EnqueuedScript) :
    ∃ degF, KInv (edgeList scripts) (· ∈ keysOf (buildGraph scripts).2) [] degF
      (kahnSorted scripts) := by
  apply kahnLoopF_spec
  · intro e he
    exact ⟨(buildGraph_keys_mem scripts e.1).mpr (edgeList_ends scripts e he).1,
      (buildGraph_keys_mem scripts e.2).mpr (edgeList_ends scripts e he).2⟩
  · exact buildGraph_adj scripts
  · exact Nat.le_refl _
  · exact kahn_base scripts

theorem kahnSorted_nodup (scripts : List EnqueuedScript) :
    (kahnSorted scripts).Nodup := by
  obtain ⟨degF, inv⟩ := kahnSorted_inv scripts
  have := inv.nodup
  simpa using this

theorem kahnSorted_subset (scripts : List EnqueuedScript) :
    ∀ h ∈ kahnSorted scripts, h ∈ truthyHandles scripts := by
  obtain ⟨degF, inv⟩ := kahnSorted_inv scripts
  intro h hmem
  exact (buildGraph_keys_mem scripts h).mp (inv.outP h hmem)

theorem kahnSorted_ord (scripts : List EnqueuedScript) :
    ∀ (j : Nat) (hj : j < (kahnSorted scripts).length) (u : String),
      (u, (kahnSorted scripts).get ⟨j, hj⟩) ∈ edgeList scripts →
      ∃ (i : Nat) (hij : i < j),
        (kahnSorted scripts).get ⟨i, Nat.lt_trans hij hj⟩ = u := by
  obtain ⟨degF, inv⟩ := kahnSorted_inv scripts
  exact inv.ordInv

theorem kahnSorted_missing (scripts : List EnqueuedScript) :
    ∀ h ∈ truthyHandles scripts, h ∉ kahnSorted scripts →
      ∃ u, (u, h) ∈ edgeList scripts ∧ u ∉ kahnSorted scripts := by
  obtain ⟨degF, inv⟩ := kahnSorted_inv scripts
  intro h hh hnot
  exact KInv_final_missing _ _ _ _ inv h
    ((buildGraph_keys_mem scripts h).mpr hh) hnot

theorem kahnSorted_complete (scripts : List EnqueuedScript)
    (rank : String → Nat) (hrank : AcyclicRank (edgeList scripts) rank) :
    ∀ h ∈ truthyHandles scripts, h ∈ kahnSorted scripts := by
  apply kahn_all_of_acyclic (edgeList scripts) (truthyHandles scripts) rank hrank
  · intro e he
    exact (edgeList_ends scripts e he).1
  · exact kahnSorted_missing scripts

theorem finalHandles_eq_kahn_of_complete (scripts : List EnqueuedScript)
    (hcomp : ∀ h ∈ truthyHandles scripts, h ∈ kahnSorted scripts) :
    finalHandles scripts = kahnSorted scripts := by
  unfold finalHandles
  by_cases hw : cycleWarning scripts = true
  · rw [if_pos hw]
    exact appendMissing_noop scripts _ hcomp
  · rw [if_neg hw]

theorem finalHandles_nodup (scripts : List EnqueuedScript) :
    (finalHandles scripts).Nodup := by
  unfold finalHandles
  by_cases hw : cycleWarning scripts = true
  · rw [if_pos hw]
    exact appendMissing_nodup scripts _ (kahnSorted_nodup scripts)
  · rw [if_neg hw]
    exact kahnSorted_nodup scripts

theorem finalHandles_subset (scripts : List EnqueuedScript) :
    ∀ h ∈ finalHandles scripts, h ∈ truthyHandles scripts := by
  unfold finalHandles
  by_cases hw : cycleWarning scripts = true
  · rw [if_pos hw]
    intro h hmem
    rcases (appendMissing_mem scripts _ h).mp hmem with hx | hx
    · exact kahnSorted_subset scripts h hx
    · exact hx
  · rw [if_neg hw]
    exact kahnSorted_subset scripts

theorem finalHandles_complete (scripts : List EnqueuedScript) :
    ∀ h ∈ truthyHandles scripts, h ∈ finalHandles scripts := by
  unfold finalHandles
  by_cases hw : cycleWarning scripts = true
  · rw [if_pos hw]
    intro h hmem
    exact (appendMissing_mem scripts _ h).mpr (Or.inr hmem)
  · rw [if_neg hw]
    -- no warning: the Kahn output has the length of the whole input, which
    -- forces it to contain every indexed handle
    intro h hmem
    have hlen : (kahnSorted scripts).length = scripts.length := by
      unfold cycleWarning at hw
      by_cases hx : (kahnSorted scripts).length = scripts.length
      · exact hx
      · exfalso
        apply hw
        simp [bne_iff_ne, hx]
    have hsub1 : List.Subperm (kahnSorted scripts) (keysOf (buildGraph scripts).2) := by
      apply List.subperm_of_subset (kahnSorted_nodup scripts)
      intro x hx
      exact (buildGraph_keys_mem scripts x).mpr (kahnSorted_subset scripts x hx)
    have hsub2 : List.Subperm (keysOf (buildGraph scripts).2) (truthyHandles scripts) := by
      apply List.subperm_of_subset (buildGraph_keys_nodup scripts)
      intro x hx
      exact (buildGraph_keys_mem scripts x).mp hx
    have hle3 : (truthyHandles scripts).length ≤ scripts.length := by
      unfold truthyHandles
      rw [List.length_map]
      exact List.length_filter_le _ _
    have hleq : (keysOf (buildGraph scripts).2).length = (kahnSorted scripts).length := by
      have h1 := hsub1.length_le
      have h2 := hsub2.length_le
      omega
    have hperm : (kahnSorted scripts).Perm (keysOf (buildGraph scripts).2) :=
      hsub1.perm_of_length_le (by omega)
    rw [hperm.mem_iff]
    exact (buildGraph_keys_mem scripts h).mpr hmem

theorem filterMap_eq_self_of {α : Type} (l : List α) (g : α → Option α)
    (hall : ∀ x ∈ l, g x = some x) : l.filterMap g = l := by
  induction l with
  | nil => rfl
  | cons x rest ih =>
    rw [List.filterMap_cons, hall x (by simp)]
    rw [ih (fun y hy => hall y (by simp [hy]))]

theorem filterMap_get_some {α β : Type} (l : List α) (g : α → Option β)
    (hall : ∀ x ∈ l, (g x).isSome = true) :
    (l.filterMap g).length = l.length ∧
    ∀ (i : Nat) (hi : i < l.length) (hi' : i < (l.filterMap g).length) (y : β),
      g (l.get ⟨i, hi⟩) = some y → (l.filterMap g).get ⟨i, hi'⟩ = y := by
  induction l with
  | nil => exact ⟨rfl, fun i hi => absurd hi (by simp)⟩
  | cons x rest ih =>
    obtain ⟨y0, hy0⟩ := Option.isSome_iff_exists.mp (hall x (by simp))
    have ihx := ih (fun z hz => hall z (by simp [hz]))
    constructor
    · rw [List.filterMap_cons, hy0]
      simp only [List.length_cons]
      rw [ihx.1]
    · have hcons : List.filterMap g (x :: rest) = y0 :: List.filterMap g rest := by
        rw [List.filterMap_cons, hy0]
      intro i hi hi' y hy
      match i with
      | 0 =>
        simp only [List.get] at hy
        rw [List.get_of_eq hcons ⟨0, hi'⟩]
        simp only [List.get]
        rw [hy0] at hy
        exact Option.some.inj hy
      | Nat.succ i' =>
        simp only [List.get] at hy
        rw [List.get_of_eq hcons ⟨i'.succ, hi'⟩]
        simp only [List.get]
        have hi'2 : i' < rest.length := by
          simp only [List.length_cons] at hi
          omega
        have hi'3 : i' < (rest.filterMap g).length := by
          have := hi'
          rw [hcons] at this
          simp only [List.length_cons] at this
          omega
        exact ihx.2 i' hi'2 hi'3 y hy

/-- C3: for every descriptor set whose present (truthy) handles are unique,
`sortScriptsByDependencies` returns a permutation of its input — the output
length equals the input length and every input descriptor appears exactly
once — and the descriptors with no handle appear at the very end of the
output, in their original relative order. -/
theorem sortScripts_is_permutation (scripts : List EnqueuedScript)
    (hnd : (truthyHandles scripts).Nodup) :
    (sortScriptsByDependencies scripts).Perm scripts ∧
    (sortScriptsByDependencies scripts).length = scripts.length ∧
    (∀ s, (sortScriptsByDependencies scripts).count s = scripts.count s) ∧
    ∃ hd, sortScriptsByDependencies scripts =
        hd ++ scripts.filter (fun s => !jsTruthy s.handle) ∧
      ∀ s ∈ hd, jsTruthy s.handle = true := by
  by_cases hemp : scripts.isEmpty = true
  · have hnil : scripts = [] := by
      cases scripts with
      | nil => rfl
      | cons a l => exact absurd hemp (by simp [List.isEmpty])
    subst hnil
    refine ⟨by simp [sortScriptsByDependencies, sortScriptsWithWarning], ?_, ?_, ?_⟩
    · simp [sortScriptsByDependencies, sortScriptsWithWarning]
    · intro s
      simp [sortScriptsByDependencies, sortScriptsWithWarning]
    · refine ⟨[], ?_, by simp⟩
      simp [sortScriptsByDependencies, sortScriptsWithWarning]
  · have hout : sortScriptsByDependencies scripts =
        (finalHandles scripts).filterMap (scriptMapGet scripts) ++
        scripts.filter (fun s => !jsTruthy s.handle) := by
      unfold sortScriptsByDependencies sortScriptsWithWarning
      rw [if_neg hemp]
    have hfperm : (finalHandles scripts).Perm (truthyHandles scripts) := by
      apply List.Subperm.antisymm
      · exact List.subperm_of_subset (finalHandles_nodup scripts)
          (finalHandles_subset scripts)
      · exact List.subperm_of_subset hnd (finalHandles_complete scripts)
    have hmap : (truthyHandles scripts).filterMap (scriptMapGet scripts) =
        scripts.filter (fun s => jsTruthy s.handle) := by
      unfold truthyHandles
      rw [List.filterMap_map]
      apply filterMap_eq_self_of
      intro s hs
      have hmem := List.mem_filter.mp hs
      exact scriptMapGet_unique scripts hnd s hmem.1 hmem.2
    have hperm1 : ((finalHandles scripts).filterMap (scriptMapGet scripts)).Perm
        (scripts.filter (fun s => jsTruthy s.handle)) := by
      rw [← hmap]
      exact hfperm.filterMap _
    have hperm : (sortScriptsByDependencies scripts).Perm scripts := by
      rw [hout]
      exact List.Perm.trans (hperm1.append_right _) (List.filter_append_perm _ scripts)
    refine ⟨hperm, hperm.length_eq, fun s => hperm.count_eq s, ?_⟩
    refine ⟨(finalHandles scripts).filterMap (scriptMapGet scripts), hout, ?_⟩
    intro s hs
    obtain ⟨h, _, hsome⟩ := List.mem_filterMap.mp hs
    exact (scriptMapGet_eq_some scripts h s hsome).2.1

/-- C1: on an acyclic descriptor set (acyclicity witnessed by a rank function
that strictly increases along every dependency edge) with unique present
handles, every dependency occurs strictly earlier in the output of
`sortScriptsByDependencies` than each of its dependents. -/
theorem sortScripts_respects_dependencies (scripts : List EnqueuedScript)
    (hnd : (truthyHandles scripts).Nodup)
    (rank : String → Nat) (hrank : AcyclicRank (edgeList scripts) rank)
    (sdep sdept : EnqueuedScript)
    (hdepm : sdep ∈ scripts) (hdeptm : sdept ∈ scripts)
    (htdep : jsTruthy sdep.handle = true) (htdept : jsTruthy sdept.handle = true)
    (hedge : (sdep.handle.getD "", sdept.handle.getD "") ∈ edgeList scripts) :
    ∃ (i j : Nat) (hi : i < (sortScriptsByDependencies scripts).length)
      (hj : j < (sortScriptsByDependencies scripts).length),
      i < j ∧ (sortScriptsByDependencies scripts).get ⟨i, hi⟩ = sdep ∧
      (sortScriptsByDependencies scripts).get ⟨j, hj⟩ = sdept := by
  have hcomp := kahnSorted_complete scripts rank hrank
  have hfin : finalHandles scripts = kahnSorted scripts :=
    finalHandles_eq_kahn_of_complete scripts hcomp
  have hemp : ¬ scripts.isEmpty = true := by
    cases scripts with
    | nil => exact absurd hdepm (List.not_mem_nil _)
    | cons a l => simp [List.isEmpty]
  have hout : sortScriptsByDependencies scripts =
      (kahnSorted scripts).filterMap (scriptMapGet scripts) ++
      scripts.filter (fun s => !jsTruthy s.handle) := by
    unfold sortScriptsByDependencies sortScriptsWithWarning
    rw [if_neg hemp, hfin]
  have hdept_th : sdept.handle.getD "" ∈ truthyHandles scripts :=
    List.mem_map.mpr ⟨sdept, List.mem_filter.mpr ⟨hdeptm, htdept⟩, rfl⟩
  have hdeptL : sdept.handle.getD "" ∈ kahnSorted scripts := hcomp _ hdept_th
  obtain ⟨⟨j, hjL⟩, hgj⟩ := List.mem_iff_get.mp hdeptL
  obtain ⟨i, hij, hgi⟩ := kahnSorted_ord scripts j hjL (sdep.handle.getD "")
    (by rw [hgj]; exact hedge)
  have hallsome : ∀ h ∈ kahnSorted scripts, (scriptMapGet scripts h).isSome = true := by
    intro h hh
    exact (scriptMapGet_isSome_iff scripts h).mpr (kahnSorted_subset scripts h hh)
  obtain ⟨hlen, hget⟩ := filterMap_get_some (kahnSorted scripts)
    (scriptMapGet scripts) hallsome
  have hgetdep : scriptMapGet scripts (sdep.handle.getD "") = some sdep :=
    scriptMapGet_unique scripts hnd sdep hdepm htdep
  have hgetdept : scriptMapGet scripts (sdept.handle.getD "") = some sdept :=
    scriptMapGet_unique scripts hnd sdept hdeptm htdept
  have hiL : i < (kahnSorted scripts).length := Nat.lt_trans hij hjL
  have hiA : i < ((kahnSorted scripts).filterMap (scriptMapGet scripts)).length := by
    rw [hlen]
    exact hiL
  have hjA : j < ((kahnSorted scripts).filterMap (scriptMapGet scripts)).length := by
    rw [hlen]
    exact hjL
  have hAi : ((kahnSorted scripts).filterMap (scriptMapGet scripts)).get ⟨i, hiA⟩ = sdep := by
    apply hget i hiL hiA sdep
    rw [hgi]
    exact hgetdep
  have hAj : ((kahnSorted scripts).filterMap (scriptMapGet scripts)).get ⟨j, hjA⟩ = sdept := by
    apply hget j hjL hjA sdept
    rw [hgj]
    exact hgetdept
  rw [hout]
  have hiO : i < ((kahnSorted scripts).filterMap (scriptMapGet scripts) ++
      scripts.filter (fun s => !jsTruthy s.handle)).length := by
    rw [List.length_append]
    omega
  have hjO : j < ((kahnSorted scripts).filterMap (scriptMapGet scripts) ++
      scripts.filter (fun s => !jsTruthy s.handle)).length := by
    rw [List.length_append]
    omega
  refine ⟨i, j, hiO, hjO, hij, ?_, ?_⟩
  · rw [List.get_append i hiA]
    exact hAi
  · rw [List.get_append j hjA]
    exact hAj

/-- C6 (code evidence): on a single descriptor with no handle — whose
indexed-handle subgraph is empty, hence trivially acyclic — the resolver
raises its circular-dependency warning anyway: the source compares the
ordered-handle count against `scripts.length` (all descriptors) instead of
the indexed-handle count. -/
theorem cycleWarning_without_cycle :
    cycleWarning [{ src := some "https://wp.example.com/x.js" }] = true ∧
    edgeList [{ src := some "https://wp.example.com/x.js" }] = [] := by
  exact ⟨by decide, by decide⟩

/-- Witness for C3: the permutation theorem applied at a concrete input with
unique handles. -/
theorem sortScripts_is_permutation_witness :
    (sortScriptsByDependencies [wScriptB, wScriptA]).Perm [wScriptB, wScriptA] ∧
    (sortScriptsByDependencies [wScriptB, wScriptA]).length = 2 := by
  have h := sortScripts_is_permutation [wScriptB, wScriptA] (by decide)
  exact ⟨h.1, by rw [h.2.1]; rfl⟩

/-- Witness for C1: the dependency-order theorem applied at a concrete acyclic
input, with an explicit rank function witnessing acyclicity. -/
theorem sortScripts_respects_dependencies_witness :
    ∃ (i j : Nat) (hi : i < (sortScriptsByDependencies [wScriptB, wScriptA]).length)
      (hj : j < (sortScriptsByDependencies [wScriptB, wScriptA]).length),
      i < j ∧
      (sortScriptsByDependencies [wScriptB, wScriptA]).get ⟨i, hi⟩ = wScriptA ∧
      (sortScriptsByDependencies [wScriptB, wScriptA]).get ⟨j, hj⟩ = wScriptB := by
  exact sortScripts_respects_dependencies [wScriptB, wScriptA] (by decide)
    (fun h => if h = "a" then 0 else 1) (by unfold AcyclicRank; decide)
    wScriptA wScriptB (by decide) (by decide) (by decide) (by decide) (by decide)

theorem char_toNat_lt (c : Char) : c.toNat < 0x110000 := by
  have hv := c.valid
  rcases hv with hv | hv
  · have : c.toNat < 55296 := hv
    omega
  · exact hv.2

theorem utf8Dec_encodeChar (c : Char) (rest : List Nat) :
    utf8Dec 0 0 (utf8EncodeChar c.toNat ++ rest) = c :: utf8Dec 0 0 rest := by
  have hlt := char_toNat_lt c
  have hofnat : Char.ofNat c.toNat = c := Char.ofNat_toNat c
  unfold utf8EncodeChar
  by_cases h1 : c.toNat < 0x80
  · rw [if_pos h1]
    simp only [List.cons_append, List.nil_append]
    show (if c.toNat < 0x80 then Char.ofNat c.toNat :: utf8Dec 0 0 rest else _) = _
    rw [if_pos h1, hofnat]
  · rw [if_neg h1]
    by_cases h2 : c.toNat < 0x800
    · rw [if_pos h2]
      simp only [List.cons_append, List.nil_append]
      rw [show utf8Dec 0 0 ((0xC0 + c.toNat / 64) :: (0x80 + c.toNat % 64) :: rest) =
          utf8Dec 1 (0xC0 + c.toNat / 64 - 0xC0) ((0x80 + c.toNat % 64) :: rest) by
        rw [utf8Dec]
        rw [if_neg (by omega), if_neg (by omega), if_pos (by omega)]]
      rw [show utf8Dec 1 (0xC0 + c.toNat / 64 - 0xC0) ((0x80 + c.toNat % 64) :: rest) =
          Char.ofNat ((0xC0 + c.toNat / 64 - 0xC0) * 64 + (0x80 + c.toNat % 64 - 0x80)) ::
            utf8Dec 0 0 rest by
        rw [utf8Dec]
        rw [if_pos (by unfold utf8Cont; simp; omega), if_pos rfl]]
      rw [show (0xC0 + c.toNat / 64 - 0xC0) * 64 + (0x80 + c.toNat % 64 - 0x80) =
        c.toNat by omega]
      rw [hofnat]
    · rw [if_neg h2]
      by_cases h3 : c.toNat < 0x10000
      · rw [if_pos h3]
        simp only [List.cons_append, List.nil_append]
        rw [show utf8Dec 0 0 ((0xE0 + c.toNat / 4096) :: (0x80 + c.toNat / 64 % 64) ::
            (0x80 + c.toNat % 64) :: rest) =
            utf8Dec 2 (0xE0 + c.toNat / 4096 - 0xE0) ((0x80 + c.toNat / 64 % 64) ::
              (0x80 + c.toNat % 64) :: rest) by
          rw [utf8Dec]
          rw [if_neg (by omega), if_neg (by omega), if_neg (by omega), if_pos (by omega)]]
        rw [show utf8Dec 2 (0xE0 + c.toNat / 4096 - 0xE0) ((0x80 + c.toNat / 64 % 64) ::
            (0x80 + c.toNat % 64) :: rest) =
            utf8Dec 1 ((0xE0 + c.toNat / 4096 - 0xE0) * 64 +
              (0x80 + c.toNat / 64 % 64 - 0x80)) ((0x80 + c.toNat % 64) :: rest) by
          rw [utf8Dec]
          rw [if_pos (by unfold utf8Cont; simp; omega), if_neg (by omega)]]
        rw [show utf8Dec 1 ((0xE0 + c.toNat / 4096 - 0xE0) * 64 +
            (0x80 + c.toNat / 64 % 64 - 0x80)) ((0x80 + c.toNat % 64) :: rest) =
            Char.ofNat (((0xE0 + c.toNat / 4096 - 0xE0) * 64 +
              (0x80 + c.toNat / 64 % 64 - 0x80)) * 64 + (0x80 + c.toNat % 64 - 0x80)) ::
              utf8Dec 0 0 rest by
          rw [utf8Dec]
          rw [if_pos (by unfold utf8Cont; simp; omega), if_pos rfl]]
        rw [show ((0xE0 + c.toNat / 4096 - 0xE0) * 64 + (0x80 + c.toNat / 64 % 64 - 0x80)) *
          64 + (0x80 + c.toNat % 64 - 0x80) = c.toNat by omega]
        rw [hofnat]
      · rw [if_neg h3]
        simp only [List.cons_append, List.nil_append]
        rw [show utf8Dec 0 0 ((0xF0 + c.toNat / 262144) :: (0x80 + c.toNat / 4096 % 64) ::
            (0x80 + c.toNat / 64 % 64) :: (0x80 + c.toNat % 64) :: rest) =
            utf8Dec 3 (0xF0 + c.toNat / 262144 - 0xF0) ((0x80 + c.toNat / 4096 % 64) ::
              (0x80 + c.toNat / 64 % 64) :: (0x80 + c.toNat % 64) :: rest) by
          rw [utf8Dec]
          rw [if_neg (by omega), if_neg (by omega), if_neg (by omega), if_neg (by omega),
            if_pos (by omega)]]
        rw [show utf8Dec 3 (0xF0 + c.toNat / 262144 - 0xF0) ((0x80 + c.toNat / 4096 % 64) ::
            (0x80 + c.toNat / 64 % 64) :: (0x80 + c.toNat % 64) :: rest) =
            utf8Dec 2 ((0xF0 + c.toNat / 262144 - 0xF0) * 64 +
              (0x80 + c.toNat / 4096 % 64 - 0x80)) ((0x80 + c.toNat / 64 % 64) ::
              (0x80 + c.toNat % 64) :: rest) by
          rw [utf8Dec]
          rw [if_pos (by unfold utf8Cont; simp; omega), if_neg (by omega)]]
        rw [show utf8Dec 2 ((0xF0 + c.toNat / 262144 - 0xF0) * 64 +
            (0x80 + c.toNat / 4096 % 64 - 0x80)) ((0x80 + c.toNat / 64 % 64) ::
            (0x80 + c.toNat % 64) :: rest) =
            utf8Dec 1 (((0xF0 + c.toNat / 262144 - 0xF0) * 64 +
              (0x80 + c.toNat / 4096 % 64 - 0x80)) * 64 + (0x80 + c.toNat / 64 % 64 - 0x80))
              ((0x80 + c.toNat % 64) :: rest) by
          rw [utf8Dec]
          rw [if_pos (by unfold utf8Cont; simp; omega), if_neg (by omega)]]
        rw [show utf8Dec 1 (((0xF0 + c.toNat / 262144 - 0xF0) * 64 +
            (0x80 + c.toNat / 4096 % 64 - 0x80)) * 64 + (0x80 + c.toNat / 64 % 64 - 0x80))
            ((0x80 + c.toNat % 64) :: rest) =
            Char.ofNat ((((0xF0 + c.toNat / 262144 - 0xF0) * 64 +
              (0x80 + c.toNat / 4096 % 64 - 0x80)) * 64 + (0x80 + c.toNat / 64 % 64 - 0x80)) *
              64 + (0x80 + c.toNat % 64 - 0x80)) :: utf8Dec 0 0 rest by
          rw [utf8Dec]
          rw [if_pos (by unfold utf8Cont; simp; omega), if_pos rfl]]
        rw [show (((0xF0 + c.toNat / 262144 - 0xF0) * 64 +
          (0x80 + c.toNat / 4096 % 64 - 0x80)) * 64 + (0x80 + c.toNat / 64 % 64 - 0x80)) *
          64 + (0x80 + c.toNat % 64 - 0x80) = c.toNat by omega]
        rw [hofnat]

theorem utf8DecodeAll_encodeAll (s : List Char) :
    utf8DecodeAll (utf8EncodeAll s) = s := by
  induction s with
  | nil => rfl
  | cons c rest ih =>
    have hstep : utf8EncodeAll (c :: rest) = utf8EncodeChar c.toNat ++ utf8EncodeAll rest :=
      rfl
    unfold utf8DecodeAll at ih ⊢
    rw [hstep, utf8Dec_encodeChar c (utf8EncodeAll rest), ih]

theorem utf8EncodeChar_lt (n : Nat) (hn : n < 0x110000) :
    ∀ b ∈ utf8EncodeChar n, b < 256 := by
  intro b hb
  unfold utf8EncodeChar at hb
  by_cases h1 : n < 0x80
  · rw [if_pos h1] at hb
    simp only [List.mem_singleton] at hb
    omega
  · rw [if_neg h1] at hb
    by_cases h2 : n < 0x800
    · rw [if_pos h2] at hb
      simp only [List.mem_cons, List.mem_singleton] at hb
      rcases hb with hb | hb | hb
      · omega
      · omega
      · exact absurd hb (by simp)
    · rw [if_neg h2] at hb
      by_cases h3 : n < 0x10000
      · rw [if_pos h3] at hb
        simp only [List.mem_cons, List.mem_singleton] at hb
        rcases hb with hb | hb | hb | hb
        · omega
        · omega
        · omega
        · exact absurd hb (by simp)
      · rw [if_neg h3] at hb
        simp only [List.mem_cons, List.mem_singleton] at hb
        rcases hb with hb | hb | hb | hb | hb
        · omega
        · omega
        · omega
        · omega
        · exact absurd hb (by simp)

theorem utf8EncodeAll_lt (s : List Char) : ∀ b ∈ utf8EncodeAll s, b < 256 := by
  intro b hb
  unfold utf8EncodeAll at hb
  obtain ⟨c, _, hbc⟩ := List.mem_flatMap.mp hb
  exact utf8EncodeChar_lt c.toNat (char_toNat_lt c) b hbc

theorem b64Dec_enc (n : Nat) (hn : n < 64) : b64Dec (b64Enc n) = n := by
  have : ∀ m : Fin 64, b64Dec (b64Enc m.val) = m.val := by decide
  exact this ⟨n, hn⟩

theorem b64Enc_ne_eq (n : Nat) : b64Enc n ≠ '=' := by
  unfold b64Enc
  by_cases h : n < base64Chars.length
  · have : ∀ m : Fin 64, base64Chars.getD m.val 'A' ≠ '=' := by decide
    have hl : base64Chars.length = 64 := by decide
    rw [hl] at h
    exact this ⟨n, h⟩
  · rw [List.getD_eq_default _ _ (by omega)]
    decide

theorem base64_roundtrip (bs : List Nat) (hb : ∀ b ∈ bs, b < 256) :
    base64Decode (base64Encode bs) = bs := by
  induction bs using base64Encode.induct with
  | case1 => rfl
  | case2 a =>
    have ha : a < 256 := hb a (by simp)
    rw [base64Encode, base64Decode]
    rw [if_pos rfl]
    rw [b64Dec_enc _ (by omega), b64Dec_enc _ (by omega)]
    rw [show a / 4 * 4 + a % 4 * 16 / 16 = a by omega]
  | case3 a b =>
    have ha : a < 256 := hb a (by simp)
    have hbb : b < 256 := hb b (by simp)
    rw [base64Encode, base64Decode]
    rw [if_neg (b64Enc_ne_eq _), if_pos rfl]
    rw [b64Dec_enc _ (by omega), b64Dec_enc _ (by omega), b64Dec_enc _ (by omega)]
    rw [show a / 4 * 4 + (a % 4 * 16 + b / 16) / 16 = a by omega]
    rw [show (a % 4 * 16 + b / 16) % 16 * 16 + b % 16 * 4 / 4 = b by omega]
  | case4 a b c rest ih =>
    have ha : a < 256 := hb a (by simp)
    have hbb : b < 256 := hb b (by simp)
    have hc : c < 256 := hb c (by simp)
    rw [base64Encode, base64Decode]
    rw [if_neg (b64Enc_ne_eq _), if_neg (b64Enc_ne_eq _)]
    rw [b64Dec_enc _ (by omega), b64Dec_enc _ (by omega), b64Dec_enc _ (by omega),
      b64Dec_enc _ (by omega)]
    rw [show a / 4 * 4 + (a % 4 * 16 + b / 16) / 16 = a by omega]
    rw [show (a % 4 * 16 + b / 16) % 16 * 16 + (b % 16 * 4 + c / 64) / 4 = b by omega]
    rw [show (b % 16 * 4 + c / 64) % 4 * 64 + c % 64 = c by omega]
    rw [ih (fun x hx => hb x (by simp [hx]))]

theorem xorCycle_involution (salt : List Nat) (i : Nat) (bs : List Nat) :
    xorCycle salt i (xorCycle salt i bs) = bs := by
  induction bs generalizing i with
  | nil => rfl
  | cons b rest ih =>
    rw [xorCycle, xorCycle]
    rw [Nat.xor_cancel_right]
    rw [ih (i + 1)]

theorem xorCycle_lt (salt : List Nat) (hsalt : ∀ b ∈ salt, b < 256) (i : Nat)
    (bs : List Nat) (hbs : ∀ b ∈ bs, b < 256) :
    ∀ b ∈ xorCycle salt i bs, b < 256 := by
  induction bs generalizing i with
  | nil => intro b hb; exact absurd hb (List.not_mem_nil _)
  | cons b rest ih =>
    intro x hx
    rw [xorCycle] at hx
    rcases List.mem_cons.mp hx with hx | hx
    · have hb : b < 256 := hbs b (by simp)
      have hs : salt.getD (i % salt.length) 0 < 256 := by
        by_cases hl : i % salt.length < salt.length
        · have : salt.getD (i % salt.length) 0 ∈ salt := by
            rw [List.getD_eq_getElem _ _ hl]
            exact List.getElem_mem hl
          exact hsalt _ this
        · rw [List.getD_eq_default _ _ (by omega)]
          omega
      rw [hx]
      have h256 : (256 : Nat) = 2 ^ 8 := by norm_num
      rw [h256] at hb hs ⊢
      exact Nat.xor_lt_two_pow hb hs
    · exact ih (i + 1) (fun y hy => hbs y (by simp [hy])) x hx

/-- C5: for every string `x` and every non-empty salt `s`, decoding the
encoding of `x` under `s` returns `x`: the XOR stream cipher against the
repeating salt bytes is an involution and the base64 transport encoding
round-trips. -/
theorem decodeWithSalt_encodeWithSalt (data salt : List Char) (hne : salt ≠ []) :
    decodeWithSalt (encodeWithSalt data salt) salt = data := by
  unfold decodeWithSalt encodeWithSalt
  rw [base64_roundtrip _ (xorCycle_lt (utf8EncodeAll salt) (utf8EncodeAll_lt salt) 0
    (utf8EncodeAll data) (utf8EncodeAll_lt data))]
  rw [xorCycle_involution]
  exact utf8DecodeAll_encodeAll data

/-- Witness for C5 at a concrete string and salt. -/
theorem decodeWithSalt_encodeWithSalt_witness :
    decodeWithSalt
      (encodeWithSalt ("https://wp.example.com".data) ("nextpress-default-salt".data))
      ("nextpress-default-salt".data) = "https://wp.example.com".data := by
  exact decodeWithSalt_encodeWithSalt _ _ (by decide)

theorem takeWhile_append_all {p : Char → Bool} (a b : List Char)
    (ha : ∀ c ∈ a, p c = true) : (a ++ b).takeWhile p = a ++ b.takeWhile p := by
  induction a with
  | nil => simp
  | cons c rest ih =>
    rw [List.cons_append, List.takeWhile_cons, if_pos (ha c (by simp)), List.cons_append]
    rw [ih (fun x hx => ha x (by simp [hx]))]

theorem takeWhile_head_false {p : Char → Bool} (c : Char) (rest : List Char)
    (hc : p c = false) : (c :: rest).takeWhile p = [] := by
  rw [List.takeWhile_cons, hc]
  simp

theorem drop_len_add (a b : List Char) (n : Nat) :
    (a ++ b).drop (a.length + n) = b.drop n := by
  induction a with
  | nil => simp
  | cons c rest ih =>
    simp only [List.cons_append, List.length_cons, List.drop]
    rw [show rest.length + 1 + n = (rest.length + n) + 1 by omega]
    simp only [List.drop_succ_cons]
    exact ih

theorem isPrefixOf_self_append (a b : List Char) : a.isPrefixOf (a ++ b) = true := by
  rw [List.isPrefixOf_iff_prefix]
  exact List.prefix_append a b

theorem parseAbsUrl_mkUrl (scheme host path search hash : List Char)
    (hs1 : scheme ≠ []) (hs2 : ∀ c ∈ scheme, isSchemeChar c = true)
    (hs3 : (scheme.headD 'a').isAlpha = true)
    (hh1 : host ≠ []) (hh2 : ∀ c ∈ host, isAuthChar c = true)
    (hp1 : ∀ c ∈ path, notQueryHash c = true)
    (hp2 : path = [] ∨ path.headD ' ' = '/')
    (hq1 : search = [] ∨ search.headD ' ' = '?') (hq2 : '#' ∉ search)
    (hf1 : hash = [] ∨ hash.headD ' ' = '#') :
    parseAbsUrl (mkUrl scheme host path search hash) =
      some ⟨scheme, host, if path = [] then ['/'] else path, search, hash⟩ := by
  have hscheme : (mkUrl scheme host path search hash).takeWhile isSchemeChar = scheme := by
    unfold mkUrl
    simp only [List.append_assoc]
    rw [takeWhile_append_all scheme _ hs2]
    rw [show ("://".data : List Char) ++ (host ++ (path ++ (search ++ hash))) =
      ':' :: ('/' :: ('/' :: (host ++ (path ++ (search ++ hash))))) from rfl]
    rw [takeWhile_head_false _ _ (by decide)]
    simp
  have hdrop0 : (mkUrl scheme host path search hash).drop scheme.length =
      "://".data ++ (host ++ (path ++ (search ++ hash))) := by
    unfold mkUrl
    simp only [List.append_assoc]
    have := drop_len_add scheme ("://".data ++ (host ++ (path ++ (search ++ hash)))) 0
    simpa using this
  have hdrop3 : (mkUrl scheme host path search hash).drop (scheme.length + 3) =
      host ++ (path ++ (search ++ hash)) := by
    unfold mkUrl
    simp only [List.append_assoc]
    rw [drop_len_add scheme _ 3]
    rfl
  have htail0 : (path ++ (search ++ hash)).takeWhile isAuthChar = [] := by
    rcases hp2 with hp2 | hp2
    · subst hp2
      simp only [List.nil_append]
      rcases hq1 with hq1 | hq1
      · subst hq1
        simp only [List.nil_append]
        rcases hf1 with hf1 | hf1
        · subst hf1
          rfl
        · match hash, hf1 with
          | c :: rest, hf1 =>
            have : c = '#' := by simpa using hf1
            rw [this]
            exact takeWhile_head_false _ _ (by decide)
      · match search, hq1 with
        | c :: rest, hq1 =>
          have : c = '?' := by simpa using hq1
          rw [this, List.cons_append]
          exact takeWhile_head_false _ _ (by decide)
    · match path, hp2 with
      | c :: rest, hp2 =>
        have : c = '/' := by simpa using hp2
        rw [this, List.cons_append]
        exact takeWhile_head_false _ _ (by decide)
  have hauth : (host ++ (path ++ (search ++ hash))).takeWhile isAuthChar = host := by
    rw [takeWhile_append_all host _ hh2, htail0]
    simp
  have hrest : (host ++ (path ++ (search ++ hash))).drop host.length =
      path ++ (search ++ hash) := by
    have := drop_len_add host (path ++ (search ++ hash)) 0
    simpa using this
  have htailq : (search ++ hash).takeWhile notQueryHash = [] := by
    rcases hq1 with hq1 | hq1
    · subst hq1
      simp only [List.nil_append]
      rcases hf1 with hf1 | hf1
      · subst hf1
        rfl
      · match hash, hf1 with
        | c :: rest, hf1 =>
          have : c = '#' := by simpa using hf1
          rw [this]
          exact takeWhile_head_false _ _ (by decide)
    · match search, hq1 with
      | c :: rest, hq1 =>
        have : c = '?' := by simpa using hq1
        rw [this, List.cons_append]
        exact takeWhile_head_false _ _ (by decide)
  have hpathpart : (path ++ (search ++ hash)).takeWhile notQueryHash = path := by
    rw [takeWhile_append_all path _ hp1, htailq]
    simp
  have hafterpath : (path ++ (search ++ hash)).drop path.length = search ++ hash := by
    have := drop_len_add path (search ++ hash) 0
    simpa using this
  have htailh : hash.takeWhile (fun c => !(c = '#')) = [] := by
    rcases hf1 with hf1 | hf1
    · subst hf1
      rfl
    · match hash, hf1 with
      | c :: rest, hf1 =>
        have : c = '#' := by simpa using hf1
        rw [this]
        exact takeWhile_head_false _ _ (by decide)
  have hsearch : (search ++ hash).takeWhile (fun c => !(c = '#')) = search := by
    have hall : ∀ c ∈ search, (!(c = '#') : Bool) = true := by
      intro c hc
      simp only [Bool.not_eq_true']
      by_cases hce : c = '#'
      · rw [hce] at hc
        exact absurd hc hq2
      · simp [hce]
    rw [takeWhile_append_all search _ hall, htailh]
    simp
  have hhash : (search ++ hash).drop search.length = hash := by
    have := drop_len_add search hash 0
    simpa using this
  unfold parseAbsUrl
  rw [hscheme, hdrop0, hdrop3, hauth, hrest]
  rw [if_neg (by simpa using hs1)]
  rw [if_neg (by rw [hs3]; simp)]
  rw [if_neg (by rw [isPrefixOf_self_append]; simp)]
  rw [if_neg (by simpa using hh1)]
  unfold parseRest
  rw [hpathpart, hafterpath, hsearch, hhash]

/-- C9: for every absolute URL routed through the proxy, the loaders' URL
rewriting yields `/atx/{instance}/wp-internal-assets{path}` when the URL's
pathname begins with `/wp-includes/` or `/wp-admin/`, and
`/atx/{instance}/wp-assets{path}` for every other pathname; both preserve
the pathname verbatim (it is appended unchanged, nested subpaths and file
extensions included). -/
theorem rewriteScriptSrc_shape (inst url : List Char) (u : UrlParts)
    (hp : parseAbsUrl url = some u) :
    (("/wp-includes/".data.isPrefixOf u.pathname = true ∨
      "/wp-admin/".data.isPrefixOf u.pathname = true) →
      rewriteScriptSrc inst url =
        "/atx/".data ++ inst ++ "/wp-internal-assets".data ++ u.pathname) ∧
    (¬("/wp-includes/".data.isPrefixOf u.pathname = true ∨
      "/wp-admin/".data.isPrefixOf u.pathname = true) →
      rewriteScriptSrc inst url =
        "/atx/".data ++ inst ++ "/wp-assets".data ++ u.pathname) := by
  have hext : extractPath url = u.pathname := by
    unfold extractPath
    rw [hp]
  constructor
  · intro hint
    unfold rewriteScriptSrc
    rw [hext]
    rw [if_pos (by unfold isInternalRoute; rcases hint with h | h <;> simp [h])]
  · intro hint
    unfold rewriteScriptSrc
    rw [hext]
    rw [if_neg (by
      unfold isInternalRoute
      intro hc
      rcases Bool.or_eq_true_iff.mp hc with h | h
      · exact hint (Or.inl h)
      · exact hint (Or.inr h))]

/-- Witness for C9 at the spec's two example URLs. -/
theorem rewriteScriptSrc_shape_witness :
    rewriteScriptSrc "shop".data "https://wp.example.com/wp-includes/js/x.js".data =
      "/atx/shop/wp-internal-assets/wp-includes/js/x.js".data ∧
    rewriteScriptSrc "shop".data "https://wp.example.com/wp-content/uploads/y.png".data =
      "/atx/shop/wp-assets/wp-content/uploads/y.png".data := by
  constructor
  · have h := (rewriteScriptSrc_shape "shop".data
      "https://wp.example.com/wp-includes/js/x.js".data
      ⟨"https".data, "wp.example.com".data, "/wp-includes/js/x.js".data, [], []⟩
      (by decide)).1 (Or.inl (by decide))
    rw [h]
    decide
  · have h := (rewriteScriptSrc_shape "shop".data
      "https://wp.example.com/wp-content/uploads/y.png".data
      ⟨"https".data, "wp.example.com".data, "/wp-content/uploads/y.png".data, [], []⟩
      (by decide)).2 (by decide)
    rw [h]
    decide

/-- C10: for a descriptor whose absolute src URL carries a query string or
fragment, the rewritten proxy load target contains only the URL's pathname:
`extractPath` returns the pathname alone, and the loaders' rewritten src is
identical to the one computed for the same URL with the query string and
fragment removed. -/
theorem extractPath_discards_query_fragment (inst scheme host path search hash : List Char)
    (hs1 : scheme ≠ []) (hs2 : ∀ c ∈ scheme, isSchemeChar c = true)
    (hs3 : (scheme.headD 'a').isAlpha = true)
    (hh1 : host ≠ []) (hh2 : ∀ c ∈ host, isAuthChar c = true)
    (hp1 : ∀ c ∈ path, notQueryHash c = true)
    (hp2 : path = [] ∨ path.headD ' ' = '/')
    (hq1 : search = [] ∨ search.headD ' ' = '?') (hq2 : '#' ∉ search)
    (hf1 : hash = [] ∨ hash.headD ' ' = '#') :
    extractPath (mkUrl scheme host path search hash) =
      (if path = [] then ['/'] else path) ∧
    rewriteScriptSrc inst (mkUrl scheme host path search hash) =
      rewriteScriptSrc inst (mkUrl scheme host path [] []) := by
  have h1 := parseAbsUrl_mkUrl scheme host path search hash
    hs1 hs2 hs3 hh1 hh2 hp1 hp2 hq1 hq2 hf1
  have h2 := parseAbsUrl_mkUrl scheme host path [] []
    hs1 hs2 hs3 hh1 hh2 hp1 hp2 (Or.inl rfl) (by simp) (Or.inl rfl)
  have he1 : extractPath (mkUrl scheme host path search hash) =
      (if path = [] then ['/'] else path) := by
    unfold extractPath
    rw [h1]
  have he2 : extractPath (mkUrl scheme host path [] []) =
      (if path = [] then ['/'] else path) := by
    unfold extractPath
    rw [h2]
  refine ⟨he1, ?_⟩
  unfold rewriteScriptSrc
  rw [he1, he2]

/-- Witness for C10 at a concrete URL with a WordPress `?ver=` cache-buster. -/
theorem extractPath_discards_query_fragment_witness :
    extractPath "https://wp.example.com/wp-includes/js/x.js?ver=6.4".data =
      "/wp-includes/js/x.js".data ∧
    rewriteScriptSrc "shop".data "https://wp.example.com/wp-includes/js/x.js?ver=6.4".data =
      rewriteScriptSrc "shop".data "https://wp.example.com/wp-includes/js/x.js".data := by
  have h := extractPath_discards_query_fragment "shop".data "https".data
    "wp.example.com".data "/wp-includes/js/x.js".data "?ver=6.4".data []
    (by decide) (by decide) (by decide) (by decide) (by decide) (by decide)
    (by decide) (by decide) (by decide) (by decide)
  constructor
  · have := h.1
    rw [show mkUrl "https".data "wp.example.com".data "/wp-includes/js/x.js".data
      "?ver=6.4".data [] = "https://wp.example.com/wp-includes/js/x.js?ver=6.4".data
      from by decide] at this
    rw [this]
    decide
  · have := h.2
    rw [show mkUrl "https".data "wp.example.com".data "/wp-includes/js/x.js".data
      "?ver=6.4".data [] = "https://wp.example.com/wp-includes/js/x.js?ver=6.4".data
      from by decide] at this
    rw [show mkUrl "https".data "wp.example.com".data "/wp-includes/js/x.js".data
      [] [] = "https://wp.example.com/wp-includes/js/x.js".data from by decide] at this
    exact this

/-- C8 counterexample: the cache key is taken from the `id` field, which the
claim says is never consulted; with `id = "script-a"` and `handle = "a"` the
key is the id, not the handle. -/
theorem cacheKey_uses_id_first :
    cacheKey sIdA 1 = "script-a" ∧ sIdA.handle = some "a" ∧ "script-a" ≠ "a" := by
  refine ⟨rfl, rfl, ?_⟩
  decide

/-- C8 (amended): the cache key is the descriptor's `id`; if absent or empty,
its `handle`; then its `src`; then the synthetic ordinal key
`inline-{currentIndex}` — and it depends on no other field of the
descriptor. -/
theorem cacheKey_priority (s : EnqueuedScript) (n : Nat) :
    (jsTruthy s.id = true → ∃ i, s.id = some i ∧ cacheKey s n = i) ∧
    (jsTruthy s.id = false → jsTruthy s.handle = true →
      ∃ h, s.handle = some h ∧ cacheKey s n = h) ∧
    (jsTruthy s.id = false → jsTruthy s.handle = false → jsTruthy s.src = true →
      ∃ v, s.src = some v ∧ cacheKey s n = v) ∧
    (jsTruthy s.id = false → jsTruthy s.handle = false → jsTruthy s.src = false →
      cacheKey s n = "inline-" ++ toString n) ∧
    (∀ t : EnqueuedScript, t.id = s.id → t.handle = s.handle → t.src = s.src →
      cacheKey t n = cacheKey s n) := by
  refine ⟨?_, ?_, ?_, ?_, ?_⟩
  · intro hid
    match s, hid with
    | ⟨some i, _, _, _, _, _, _, _, _⟩, hid =>
      exact ⟨i, rfl, by unfold cacheKey jsOr; rw [if_pos hid]; rfl⟩
    | ⟨none, _, _, _, _, _, _, _, _⟩, hid => exact absurd hid (by simp [jsTruthy])
  · intro hid hh
    match s, hh with
    | ⟨_, some h, _, _, _, _, _, _, _⟩, hh =>
      refine ⟨h, rfl, ?_⟩
      unfold cacheKey jsOr
      rw [if_neg (by rw [hid]; exact fun hc => Bool.false_ne_true hc)]
      rw [if_pos hh]
      rfl
    | ⟨_, none, _, _, _, _, _, _, _⟩, hh => exact absurd hh (by simp [jsTruthy])
  · intro hid hh hs
    match s, hs with
    | ⟨_, _, some v, _, _, _, _, _, _⟩, hs =>
      refine ⟨v, rfl, ?_⟩
      unfold cacheKey jsOr
      rw [if_neg (by rw [hid]; exact fun hc => Bool.false_ne_true hc)]
      rw [if_neg (by rw [hh]; exact fun hc => Bool.false_ne_true hc)]
      rw [if_pos hs]
      rfl
    | ⟨_, _, none, _, _, _, _, _, _⟩, hs => exact absurd hs (by simp [jsTruthy])
  · intro hid hh hs
    unfold cacheKey jsOr
    rw [if_neg (by rw [hid]; exact fun hc => Bool.false_ne_true hc)]
    rw [if_neg (by rw [hh]; exact fun hc => Bool.false_ne_true hc)]
    rw [if_neg (by rw [hs]; exact fun hc => Bool.false_ne_true hc)]
    rfl
  · intro t h1 h2 h3
    unfold cacheKey jsOr
    rw [h1, h2, h3]

/-- Witness for the amended C8 characterization at a concrete descriptor. -/
theorem cacheKey_priority_witness : cacheKey sIdA 1 = "script-a" := by
  obtain ⟨i, hi, hk⟩ := (cacheKey_priority sIdA 1).1 (by decide)
  rw [hk]
  have : some "script-a" = some i := hi
  injection this with h2
  exact h2.symm

theorem mem_if_list {c : Prop} [Decidable c] {e : LoadEvent} {l : List LoadEvent}
    (h : e ∈ if c then l else []) : e ∈ l := by
  by_cases hc : c
  · rwa [if_pos hc] at h
  · rw [if_neg hc] at h
    exact absurd h (List.not_mem_nil e)

theorem scriptBlock_idx (outcome : Nat → Bool) (s : EnqueuedScript) (i : Nat) :
    ∀ e ∈ scriptBlock outcome s i, evIdx e = some i := by
  intro e he
  unfold scriptBlock at he
  rcases List.mem_append.mp he with h | h
  · rcases List.mem_append.mp h with h | h
    · have := mem_if_list h
      simp only [List.mem_singleton] at this
      rw [this]
      rfl
    · have := mem_if_list h
      simp only [List.mem_singleton] at this
      rw [this]
      rfl
  · have h' := mem_if_list h
    rcases List.mem_append.mp h' with h | h
    · rcases h with _ | ⟨_, h⟩
      · rfl
      · rcases h with _ | ⟨_, h⟩
        · rfl
        · exact absurd h (List.not_mem_nil e)
    · have := mem_if_list h
      simp only [List.mem_singleton] at this
      rw [this]
      rfl

theorem pairwise_of_mem {α : Type} {R : α → α → Prop} :
    ∀ (l : List α), (∀ a ∈ l, ∀ b ∈ l, R a b) → l.Pairwise R := by
  intro l
  induction l with
  | nil => intro _; exact List.Pairwise.nil
  | cons x xs ih =>
    intro h
    refine List.Pairwise.cons ?_ (ih ?_)
    · intro b hb
      exact h x (by simp) b (by simp [hb])
    · intro a ha b hb
      exact h a (by simp [ha]) b (by simp [hb])

theorem blocks_idx_ge (outcome : Nat → Bool) :
    ∀ (scripts : List EnqueuedScript) (i : Nat),
      ∀ e ∈ blocks outcome scripts i, ∀ j, evIdx e = some j → i ≤ j := by
  intro scripts
  induction scripts with
  | nil =>
    intro i e he j hj
    unfold blocks at he
    simp only [List.mem_singleton] at he
    rw [he] at hj
    exact absurd hj (by simp [evIdx])
  | cons s rest ih =>
    intro i e he j hj
    unfold blocks at he
    rcases List.mem_append.mp he with h | h
    · have := scriptBlock_idx outcome s i e h
      rw [this] at hj
      injection hj with hj2
      omega
    · have := ih (i + 1) e h j hj
      omega

theorem blocks_pairwise (outcome : Nat → Bool) :
    ∀ (scripts : List EnqueuedScript) (i : Nat),
      (blocks outcome scripts i).Pairwise evLE := by
  intro scripts
  induction scripts with
  | nil =>
    intro i
    unfold blocks
    exact List.Pairwise.cons (by intro b hb; exact absurd hb (List.not_mem_nil b))
      List.Pairwise.nil
  | cons s rest ih =>
    intro i
    unfold blocks
    refine List.pairwise_append.mpr ⟨?_, ih (i + 1), ?_⟩
    · refine pairwise_of_mem _ ?_
      intro a ha b hb
      intro x y hx hy
      rw [scriptBlock_idx outcome s i a ha] at hx
      rw [scriptBlock_idx outcome s i b hb] at hy
      injection hx with hx2
      injection hy with hy2
      omega
    · intro a ha b hb
      intro x y hx hy
      rw [scriptBlock_idx outcome s i a ha] at hx
      injection hx with hx2
      have := blocks_idx_ge outcome rest (i + 1) b hb y hy
      omega

theorem blocks_decomp (outcome : Nat → Bool) :
    ∀ (scripts : List EnqueuedScript) (i : Nat),
      ∃ body, blocks outcome scripts i = body ++ [LoadEvent.complete] ∧
        LoadEvent.complete ∉ body := by
  intro scripts
  induction scripts with
  | nil =>
    intro i
    exact ⟨[], rfl, by simp⟩
  | cons s rest ih =>
    intro i
    obtain ⟨body, hb1, hb2⟩ := ih (i + 1)
    refine ⟨scriptBlock outcome s i ++ body, ?_, ?_⟩
    · unfold blocks
      rw [hb1, List.append_assoc]
    · intro hc
      rcases List.mem_append.mp hc with h | h
      · have := scriptBlock_idx outcome s i _ h
        exact absurd this (by simp [evIdx])
      · exact hb2 h

theorem blocks_mem_main (outcome : Nat → Bool) :
    ∀ (scripts : List EnqueuedScript) (i : Nat) (p : Nat) (hp : p < scripts.length),
      jsTruthy (scripts.get ⟨p, hp⟩).src = true →
      LoadEvent.attachMain (i + p) ∈ blocks outcome scripts i ∧
      LoadEvent.term (i + p) (outcome (i + p)) ∈ blocks outcome scripts i := by
  intro scripts
  induction scripts with
  | nil =>
    intro i p hp
    exact absurd hp (by simp)
  | cons s rest ih =>
    intro i p hp hsrc
    match p with
    | 0 =>
      have hsrc0 : jsTruthy s.src = true := hsrc
      have hmain : LoadEvent.attachMain i ∈ scriptBlock outcome s i := by
        unfold scriptBlock
        refine List.mem_append.mpr (Or.inr ?_)
        rw [if_pos hsrc0]
        exact List.mem_append.mpr (Or.inl (by simp))
      have hterm : LoadEvent.term i (outcome i) ∈ scriptBlock outcome s i := by
        unfold scriptBlock
        refine List.mem_append.mpr (Or.inr ?_)
        rw [if_pos hsrc0]
        exact List.mem_append.mpr (Or.inl (by simp))
      constructor
      · unfold blocks
        exact List.mem_append.mpr (Or.inl (by simpa using hmain))
      · unfold blocks
        exact List.mem_append.mpr (Or.inl (by simpa using hterm))
    | q + 1 =>
      have hq : q < rest.length := by
        simp only [List.length_cons] at hp
        omega
      have := ih (i + 1) q hq (by simpa using hsrc)
      have he : i + 1 + q = i + (q + 1) := by omega
      rw [he] at this
      constructor
      · unfold blocks
        exact List.mem_append.mpr (Or.inr this.1)
      · unfold blocks
        exact List.mem_append.mpr (Or.inr this.2)

theorem keysFrom_get :
    ∀ (scripts : List EnqueuedScript) (i : Nat) (p : Nat) (hp : p < scripts.length),
      cacheKey (scripts.get ⟨p, hp⟩) (i + p + 1) ∈ keysFrom scripts i := by
  intro scripts
  induction scripts with
  | nil =>
    intro i p hp
    exact absurd hp (by simp)
  | cons s rest ih =>
    intro i p hp
    match p with
    | 0 =>
      unfold keysFrom
      exact List.mem_cons.mpr (Or.inl rfl)
    | q + 1 =>
      have hq : q < rest.length := by
        simp only [List.length_cons] at hp
        omega
      have := ih (i + 1) q hq
      have he : i + 1 + q = i + (q + 1) := by omega
      rw [he] at this
      unfold keysFrom
      exact List.mem_cons.mpr (Or.inr this)

theorem loadNextScriptLoop_run (outcome : Nat → Bool) :
    ∀ (scripts : List EnqueuedScript) (i : Nat) (cache : List String),
      (∀ k ∈ keysFrom scripts i, cache.contains k = false) →
      (keysFrom scripts i).Nodup →
      loadNextScriptLoop outcome scripts i cache =
        (blocks outcome scripts i, cache ++ keysFrom scripts i) := by
  intro scripts
  induction scripts with
  | nil =>
    intro i cache _ _
    simp [loadNextScriptLoop, blocks, keysFrom]
  | cons s rest ih =>
    intro i cache hfresh hnodup
    have hkey : cache.contains (cacheKey s (i + 1)) = false :=
      hfresh _ (by unfold keysFrom; exact List.mem_cons.mpr (Or.inl rfl))
    have hnotmem : cacheKey s (i + 1) ∉ keysFrom rest (i + 1) := by
      unfold keysFrom at hnodup
      exact (List.nodup_cons.mp hnodup).1
    have hfresh' : ∀ k ∈ keysFrom rest (i + 1),
        (cache ++ [cacheKey s (i + 1)]).contains k = false := by
      intro k hk
      have h1 := hfresh k (by unfold keysFrom; exact List.mem_cons.mpr (Or.inr hk))
      have hcon : ¬ ((cache ++ [cacheKey s (i + 1)]).contains k = true) := by
        rw [containsBoolIff]
        intro hm
        rcases List.mem_append.mp hm with hm | hm
        · have := (containsBoolIff cache k).mpr hm
          rw [h1] at this
          exact Bool.false_ne_true this
        · have hke : k = cacheKey s (i + 1) := by simpa using hm
          rw [hke] at hk
          exact hnotmem hk
      simpa using hcon
    have hnodup' : (keysFrom rest (i + 1)).Nodup := by
      unfold keysFrom at hnodup
      exact (List.nodup_cons.mp hnodup).2
    unfold loadNextScriptLoop
    rw [if_neg (by rw [hkey]; exact Bool.false_ne_true)]
    rw [ih (i + 1) (cache ++ [cacheKey s (i + 1)]) hfresh' hnodup']
    show (scriptBlock outcome s i ++ blocks outcome rest (i + 1),
        (cache ++ [cacheKey s (i + 1)]) ++ keysFrom rest (i + 1)) =
      (blocks outcome (s :: rest) i, cache ++ keysFrom (s :: rest) i)
    rw [List.append_assoc]
    rfl

theorem get_eq_of_eq_list {α : Type} {l l' : List α} (h : l = l') (n : Nat)
    (h1 : n < l.length) (h2 : n < l'.length) : l.get ⟨n, h1⟩ = l'.get ⟨n, h2⟩ := by
  subst h
  rfl

/-- C2: in one loader phase with pairwise-distinct fresh cache keys, (1) any
terminal event for asset `i` precedes every attach event of any asset
`j > i` (no DOM element of a later asset is attached before the earlier
asset's load or error fires); (2) every src-bearing asset's main element is
attached and its terminal event fires with whatever outcome the network
gives — errors advance the machine just like successes; (3) every asset's
cache key, including failed assets', is in the cache afterwards, so it is
not retried; (4) the completion callback fires exactly once, after all
other events. -/
theorem loadNextScript_sequencing (outcome : Nat → Bool) (scripts : List EnqueuedScript)
    (hkeys : (keysFrom scripts 0).Nodup) :
    (∀ p q : Fin (bodyScriptsRun outcome scripts).1.length, ∀ i ok j,
        (bodyScriptsRun outcome scripts).1.get p = LoadEvent.term i ok →
        evIdx ((bodyScriptsRun outcome scripts).1.get q) = some j →
        i < j → (p : Nat) < (q : Nat)) ∧
    (∀ p : Fin scripts.length, jsTruthy (scripts.get p).src = true →
        LoadEvent.attachMain (p : Nat) ∈ (bodyScriptsRun outcome scripts).1 ∧
        LoadEvent.term (p : Nat) (outcome (p : Nat)) ∈ (bodyScriptsRun outcome scripts).1) ∧
    (∀ p : Fin scripts.length,
        (bodyScriptsRun outcome scripts).2.contains
          (cacheKey (scripts.get p) ((p : Nat) + 1)) = true) ∧
    (bodyScriptsRun outcome scripts).1.getLast? = some LoadEvent.complete ∧
    (bodyScriptsRun outcome scripts).1.count LoadEvent.complete = 1 := by
  have hrun : bodyScriptsRun outcome scripts =
      (blocks outcome scripts 0, [] ++ keysFrom scripts 0) := by
    unfold bodyScriptsRun
    exact loadNextScriptLoop_run outcome scripts 0 [] (fun k _ => rfl) hkeys
  have htr : (bodyScriptsRun outcome scripts).1 = blocks outcome scripts 0 := by
    rw [hrun]
  have hca : (bodyScriptsRun outcome scripts).2 = keysFrom scripts 0 := by
    rw [hrun]
    simp
  refine ⟨?_, ?_, ?_, ?_, ?_⟩
  · intro p q i ok j hp hq hij
    have hpw := blocks_pairwise outcome scripts 0
    rcases Nat.lt_trichotomy (p : Nat) (q : Nat) with h | h | h
    · exact h
    · exfalso
      have heq : (bodyScriptsRun outcome scripts).1.get p =
          (bodyScriptsRun outcome scripts).1.get q := by
        congr 1
        exact Fin.ext h
      rw [← heq, hp] at hq
      simp only [evIdx] at hq
      injection hq with hq2
      omega
    · exfalso
      have hp2 : (p : Nat) < (blocks outcome scripts 0).length := by
        rw [← htr]
        exact p.2
      have hq2 : (q : Nat) < (blocks outcome scripts 0).length := by
        rw [← htr]
        exact q.2
      have hp3 : (blocks outcome scripts 0).get ⟨(p : Nat), hp2⟩ = LoadEvent.term i ok := by
        rw [← get_eq_of_eq_list htr (p : Nat) p.2 hp2]
        exact hp
      have hq3 : evIdx ((blocks outcome scripts 0).get ⟨(q : Nat), hq2⟩) = some j := by
        rw [← get_eq_of_eq_list htr (q : Nat) q.2 hq2]
        exact hq
      have hle := List.pairwise_iff_get.mp hpw ⟨(q : Nat), hq2⟩ ⟨(p : Nat), hp2⟩ h
      have := hle j i hq3 (by rw [hp3]; rfl)
      omega
  · intro p hsrc
    have := blocks_mem_main outcome scripts 0 (p : Nat) p.2 hsrc
    rw [Nat.zero_add] at this
    rw [htr]
    exact this
  · intro p
    rw [hca, containsBoolIff]
    have := keysFrom_get scripts 0 (p : Nat) p.2
    rwa [Nat.zero_add] at this
  · obtain ⟨body, hb1, _⟩ := blocks_decomp outcome scripts 0
    rw [htr, hb1]
    exact List.getLast?_concat body
  · obtain ⟨body, hb1, hb2⟩ := blocks_decomp outcome scripts 0
    rw [htr, hb1, List.count_append]
    rw [List.count_eq_zero.mpr hb2]
    rfl

/-- Witness: three scripts with B failing; B's terminal error event still
occurs, its key is cached, and the phase completes. -/
theorem loadNextScript_sequencing_witness :
    LoadEvent.attachMain 2 ∈ (bodyScriptsRun outc3 scr3).1 ∧
    LoadEvent.term 1 false ∈ (bodyScriptsRun outc3 scr3).1 ∧
    (bodyScriptsRun outc3 scr3).2.contains (cacheKey sB3 2) = true ∧
    (bodyScriptsRun outc3 scr3).1.getLast? = some LoadEvent.complete := by
  have h := loadNextScript_sequencing outc3 scr3 (by decide)
  refine ⟨(h.2.1 ⟨2, by decide⟩ (by decide)).1, ?_, ?_, h.2.2.2.1⟩
  · exact (h.2.1 ⟨1, by decide⟩ (by decide)).2
  · exact h.2.2.1 ⟨1, by decide⟩

/-- C7: `transformWcSettings` is total, and every failure — the decode
pattern being absent, the payload not percent-decoding, the payload not
JSON-parsing, a `storePages` URL failing to parse during mutation, or the
re-encoder finding no variable declaration — makes it return the original
`beforeScript` unchanged. -/
theorem transformWcSettings_failure_to_original (b f inst : List Char) (r : Bool) :
    (decodeWcSettings b = none → transformWcSettings b f inst r = b) ∧
    (∀ t e, decodeWcSettings b = some (t, e) →
      mutateWcSettings t f inst r = none → transformWcSettings b f inst r = b) ∧
    (∀ t e m, decodeWcSettings b = some (t, e) → mutateWcSettings t f inst r = some m →
      encodeWcSettings b m = none → transformWcSettings b f inst r = b) ∧
    (findDecodeArg b = none → decodeWcSettings b = none) ∧
    (∀ enc, findDecodeArg b = some enc → uriDecode (unescapeJs enc) = none →
      decodeWcSettings b = none) ∧
    (∀ enc j, findDecodeArg b = some enc → uriDecode (unescapeJs enc) = some j →
      jsonParse j = none → decodeWcSettings b = none) := by
  refine ⟨?_, ?_, ?_, ?_, ?_, ?_⟩
  · intro h
    unfold transformWcSettings
    rw [h]
  · intro t e h1 h2
    unfold transformWcSettings
    rw [h1]
    show (match mutateWcSettings t f inst r with
      | none => b
      | some m =>
        match encodeWcSettings b m with
        | none => b
        | some out => out) = b
    rw [h2]
  · intro t e m h1 h2 h3
    unfold transformWcSettings
    rw [h1]
    show (match mutateWcSettings t f inst r with
      | none => b
      | some m2 =>
        match encodeWcSettings b m2 with
        | none => b
        | some out => out) = b
    rw [h2]
    show (match encodeWcSettings b m with
      | none => b
      | some out => out) = b
    rw [h3]
  · intro h
    unfold decodeWcSettings
    rw [h]
  · intro enc h1 h2
    unfold decodeWcSettings
    rw [h1]
    show (match uriDecode (unescapeJs enc) with
      | none => none
      | some j =>
        match jsonParse j with
        | none => none
        | some t => some (t, enc)) = none
    rw [h2]
  · intro enc j h1 h2 h3
    unfold decodeWcSettings
    rw [h1]
    show (match uriDecode (unescapeJs enc) with
      | none => none
      | some j2 =>
        match jsonParse j2 with
        | none => none
        | some t => some (t, enc)) = none
    rw [h2]
    show (match jsonParse j with
      | none => none
      | some t => some (t, enc)) = none
    rw [h3]

/-- Witness: the pattern-free input and the malformed-payload input both
come back unchanged. -/
theorem transformWcSettings_failure_witness :
    transformWcSettings wcBad1 wcF0 wcI0 false = wcBad1 ∧
    transformWcSettings wcBad2 wcF0 wcI0 false = wcBad2 := by
  constructor
  · exact (transformWcSettings_failure_to_original wcBad1 wcF0 wcI0 false).1 (by rfl)
  · exact (transformWcSettings_failure_to_original wcBad2 wcF0 wcI0 false).1 (by rfl)

theorem dropWhile_head_false {p : Char → Bool} (c : Char) (rest : List Char)
    (hc : p c = false) : (c :: rest).dropWhile p = c :: rest := by
  rw [List.dropWhile_cons, hc]
  simp

theorem replaceChar_id (t : Char) (r : List Char) (s : List Char)
    (h : ∀ c ∈ s, c ≠ t) : replaceChar t r s = s := by
  induction s with
  | nil => rfl
  | cons c s2 ih =>
    show (if c = t then r else [c]) ++ replaceChar t r s2 = c :: s2
    rw [if_neg (h c (by simp))]
    rw [ih (fun x hx => h x (by simp [hx]))]
    rfl

theorem replacePair_id (a b : Char) (r : List Char) (s : List Char)
    (h : ∀ x ∈ s, x ≠ a) : replacePair a b r s = s := by
  induction s with
  | nil => rfl
  | cons x s2 ih =>
    cases s2 with
    | nil => rfl
    | cons y rest =>
      show (if x = a ∧ y = b then r ++ replacePair a b r rest
        else x :: replacePair a b r (y :: rest)) = x :: y :: rest
      rw [if_neg (fun hc => h x (by simp) hc.1)]
      rw [ih (fun z hz => h z (by simp [hz]))]

theorem escJs_id (s : List Char)
    (h : ∀ c ∈ s, (c = '\r' ∨ c = '\\' ∨ c = '\'' ∨ c = '"' ∨ c = '\n') → False) :
    escJs s = s := by
  unfold escJs
  rw [List.filter_eq_self.mpr (fun c hc => by
    have hne : c ≠ '\r' := fun he => h c hc (Or.inl he)
    simp [hne])]
  rw [replaceChar_id '\\' _ s (fun c hc he => h c hc (Or.inr (Or.inl he)))]
  rw [replaceChar_id '\'' _ s (fun c hc he => h c hc (Or.inr (Or.inr (Or.inl he))))]
  rw [replaceChar_id '"' _ s (fun c hc he => h c hc (Or.inr (Or.inr (Or.inr (Or.inl he)))))]
  rw [replaceChar_id '\n' _ s (fun c hc he => h c hc (Or.inr (Or.inr (Or.inr (Or.inr he)))))]

theorem unescapeJs_id (s : List Char) (h : ∀ c ∈ s, c ≠ '\\') : unescapeJs s = s := by
  unfold unescapeJs
  rw [replacePair_id '\\' 'n' _ s h]
  rw [replacePair_id '\\' '"' _ s h]
  rw [replacePair_id '\\' '\'' _ s h]
  rw [replacePair_id '\\' '\\' _ s h]

theorem hexDigitUpper_unreserved (n : Nat) (hn : n < 16) :
    isUnreservedUri (hexDigitUpper n) = true := by
  have hfin : ∀ m : Fin 16, isUnreservedUri (hexDigitUpper m) = true := by decide
  exact hfin ⟨n, hn⟩

theorem mem_uriEncode (s : List Char) :
    ∀ c ∈ uriEncode s, isUnreservedUri c = true ∨ c = '%' := by
  intro c hc
  unfold uriEncode at hc
  rcases List.mem_flatMap.mp hc with ⟨x, hx, hcx⟩
  by_cases hu : isUnreservedUri x
  · rw [if_pos hu] at hcx
    simp only [List.mem_singleton] at hcx
    subst hcx
    exact Or.inl hu
  · rw [if_neg hu] at hcx
    rcases List.mem_flatMap.mp hcx with ⟨b, hb, hcb⟩
    have hblt : b < 256 := utf8EncodeChar_lt x.toNat (char_toNat_lt x) b hb
    unfold pctByte at hcb
    simp only [List.mem_cons, List.not_mem_nil, or_false] at hcb
    rcases hcb with rfl | rfl | rfl
    · exact Or.inr rfl
    · exact Or.inl (hexDigitUpper_unreserved (b / 16) (by omega))
    · exact Or.inl (hexDigitUpper_unreserved (b % 16) (by omega))

theorem uriEncode_no_esc (s : List Char) (c : Char) (hc : c ∈ uriEncode s) :
    ¬(c = '\r' ∨ c = '\\' ∨ c = '"' ∨ c = '\n') := by
  intro hbad
  rcases mem_uriEncode s c hc with h | h
  · rcases hbad with rfl | rfl | rfl | rfl <;> exact absurd h (by decide)
  · rcases hbad with rfl | rfl | rfl | rfl <;> exact absurd h (by decide)

theorem uriEncode_noQuote (s : List Char) (hq : '\'' ∉ uriEncode s) :
    ∀ c ∈ uriEncode s, isQuote c = false := by
  intro c hc
  have h2 : c ≠ '"' := fun he => uriEncode_no_esc s c hc (Or.inr (Or.inr (Or.inl he)))
  have h1 : c ≠ '\'' := fun he => hq (by rw [he] at hc; exact hc)
  unfold isQuote
  simp [h1, h2]

theorem wcEnc_eq (p : Json) (hq : '\'' ∉ uriEncode (jsonStringify p)) :
    wcEnc p = uriEncode (jsonStringify p) := by
  unfold wcEnc
  apply escJs_id
  intro c hc hbad
  rcases hbad with he | he | he | he | he
  · exact uriEncode_no_esc _ c hc (Or.inl he)
  · exact uriEncode_no_esc _ c hc (Or.inr (Or.inl he))
  · rw [he] at hc
    exact hq hc
  · exact uriEncode_no_esc _ c hc (Or.inr (Or.inr (Or.inl he)))
  · exact uriEncode_no_esc _ c hc (Or.inr (Or.inr (Or.inr he)))

theorem utf8EncodeChar_ne_nil (n : Nat) : utf8EncodeChar n ≠ [] := by
  unfold utf8EncodeChar
  by_cases h1 : n < 0x80
  · rw [if_pos h1]
    simp
  · rw [if_neg h1]
    by_cases h2 : n < 0x800
    · rw [if_pos h2]
      simp
    · rw [if_neg h2]
      by_cases h3 : n < 0x10000
      · rw [if_pos h3]
        simp
      · rw [if_neg h3]
        simp

theorem uriEncode_ne_nil (s : List Char) (hs : s ≠ []) : uriEncode s ≠ [] := by
  match s with
  | c :: rest =>
    show ((if isUnreservedUri c then [c]
      else (utf8EncodeChar c.toNat).flatMap pctByte) ++ uriEncode rest) ≠ []
    by_cases hu : isUnreservedUri c
    · rw [if_pos hu]
      simp
    · rw [if_neg hu]
      match hE : utf8EncodeChar c.toNat with
      | [] => exact absurd hE (utf8EncodeChar_ne_nil _)
      | b :: bs =>
        show ((pctByte b ++ bs.flatMap pctByte) ++ uriEncode rest) ≠ []
        unfold pctByte
        simp

theorem natStr_ne_nil (n : Nat) : natStr n ≠ [] := by
  unfold natStr
  show (if n < 10 then [Char.ofNat (48 + n)]
    else natDigitsAux n (n / 10) ++ [Char.ofNat (48 + n % 10)]) ≠ []
  by_cases h : n < 10
  · rw [if_pos h]
    simp
  · rw [if_neg h]
    simp

theorem jsonStringify_ne_nil (p : Json) : jsonStringify p ≠ [] := by
  cases p with
  | null => simp [jsonStringify]
  | bool b => cases b <;> simp [jsonStringify]
  | num i =>
    show intStr i ≠ []
    unfold intStr
    by_cases h : i < 0
    · rw [if_pos h]
      simp
    · rw [if_neg h]
      exact natStr_ne_nil _
  | str s =>
    show jsonStrLit s ≠ []
    unfold jsonStrLit
    simp
  | arr xs => simp [jsonStringify]
  | obj kvs => simp [jsonStringify]

theorem hexVal_hexDigitUpper (n : Nat) (hn : n < 16) :
    hexVal (hexDigitUpper n) = some n := by
  have hfin : ∀ m : Fin 16, hexVal (hexDigitUpper m) = some m := by decide
  exact hfin ⟨n, hn⟩

theorem uriToBytes_cons_lit (c : Char) (rest : List Char) (hc : ¬(c = '%')) :
    uriToBytes (c :: rest) =
      (match uriToBytes rest with
        | some bs3 => some (utf8EncodeChar c.toNat ++ bs3)
        | none => none) := by
  rw [uriToBytes.eq_def]
  simp only []
  rw [if_neg hc]

theorem uriToBytes_pct (bytes : List Nat) (rest : List Char) (bs2 : List Nat)
    (hb : ∀ b ∈ bytes, b < 256) (hrest : uriToBytes rest = some bs2) :
    uriToBytes (bytes.flatMap pctByte ++ rest) = some (bytes ++ bs2) := by
  induction bytes with
  | nil => simpa using hrest
  | cons b bs ih =>
    have hlt := hb b (by simp)
    show uriToBytes ('%' :: hexDigitUpper (b / 16) :: hexDigitUpper (b % 16) ::
      (bs.flatMap pctByte ++ rest)) = some (b :: (bs ++ bs2))
    simp only [uriToBytes]
    rw [if_pos trivial]
    rw [hexVal_hexDigitUpper (b / 16) (by omega)]
    rw [hexVal_hexDigitUpper (b % 16) (by omega)]
    rw [ih (fun x hx => hb x (by simp [hx]))]
    show some ((16 * (b / 16) + b % 16) :: (bs ++ bs2)) = some (b :: (bs ++ bs2))
    have hbe : 16 * (b / 16) + b % 16 = b := by omega
    rw [hbe]

theorem uriToBytes_uriEncode (s : List Char) :
    uriToBytes (uriEncode s) = some (utf8EncodeAll s) := by
  induction s with
  | nil => rfl
  | cons c rest ih =>
    show uriToBytes ((if isUnreservedUri c then [c]
        else (utf8EncodeChar c.toNat).flatMap pctByte) ++ uriEncode rest) =
      some (utf8EncodeChar c.toNat ++ utf8EncodeAll rest)
    by_cases hu : isUnreservedUri c
    · rw [if_pos hu]
      have hc : ¬(c = '%') := by
        intro he
        rw [he] at hu
        exact absurd hu (by decide)
      show uriToBytes (c :: uriEncode rest) =
        some (utf8EncodeChar c.toNat ++ utf8EncodeAll rest)
      rw [uriToBytes_cons_lit c (uriEncode rest) hc, ih]
    · rw [if_neg hu]
      exact uriToBytes_pct (utf8EncodeChar c.toNat) (uriEncode rest) (utf8EncodeAll rest)
        (utf8EncodeChar_lt c.toNat (char_toNat_lt c)) ih

theorem uriDecode_uriEncode (s : List Char) : uriDecode (uriEncode s) = some s := by
  unfold uriDecode
  rw [uriToBytes_uriEncode]
  show some (utf8DecodeAll (utf8EncodeAll s)) = some s
  rw [utf8DecodeAll_encodeAll]

theorem matchDecodeAt_cons_ne (c : Char) (rest : List Char) (hc : c ≠ 'd') :
    matchDecodeAt (c :: rest) = none := by
  unfold matchDecodeAt
  have hpre : "decodeURIComponent(".data.isPrefixOf (c :: rest) = false := by
    show (('d' == c) && "ecodeURIComponent(".data.isPrefixOf rest) = false
    have hne : ('d' == c) = false := beq_eq_false_iff_ne.mpr (fun he => hc he.symm)
    rw [hne]
    rfl
  rw [if_neg (by rw [hpre]; exact Bool.false_ne_true)]

theorem findDecodeArg_append_no_d (A B : List Char) (hA : ∀ c ∈ A, c ≠ 'd') :
    findDecodeArg (A ++ B) = findDecodeArg B := by
  induction A with
  | nil => simp
  | cons c A2 ih =>
    show findDecodeArg (c :: (A2 ++ B)) = findDecodeArg B
    rw [findDecodeArg.eq_def]
    simp only []
    rw [matchDecodeAt_cons_ne c _ (hA c (by simp))]
    exact ih (fun x hx => hA x (by simp [hx]))

theorem findDecodeArg_cons_some (c : Char) (rest g : List Char)
    (h : matchDecodeAt (c :: rest) = some g) : findDecodeArg (c :: rest) = some g := by
  rw [findDecodeArg.eq_def]
  simp only []
  rw [h]

theorem findVarName_cons_some (c : Char) (rest g : List Char)
    (h : matchVarAt (c :: rest) = some g) : findVarName (c :: rest) = some g := by
  rw [findVarName.eq_def]
  simp only []
  rw [h]

theorem matchDecodeAt_canonical (E : List Char) (hEne : E ≠ [])
    (hEq : ∀ c ∈ E, isQuote c = false) :
    matchDecodeAt ("decodeURIComponent( '".data ++ (E ++ "' ) );".data)) = some E := by
  have hsplit : ("decodeURIComponent( '".data : List Char) ++ (E ++ "' ) );".data) =
      "decodeURIComponent(".data ++ (" '".data ++ (E ++ "' ) );".data)) := by
    rw [show ("decodeURIComponent( '".data : List Char) =
      "decodeURIComponent(".data ++ " '".data from rfl]
    rw [List.append_assoc]
  rw [hsplit]
  unfold matchDecodeAt
  rw [if_pos (isPrefixOf_self_append _ _)]
  have hdrop : (("decodeURIComponent(".data : List Char) ++
      (" '".data ++ (E ++ "' ) );".data))).drop 19 =
      " '".data ++ (E ++ "' ) );".data) := by
    rw [show (19 : Nat) = ("decodeURIComponent(".data : List Char).length + 0 from rfl]
    rw [drop_len_add]
    rw [List.drop_zero]
  rw [hdrop]
  unfold matchQuoted
  have hdw : ((" '".data : List Char) ++ (E ++ "' ) );".data)).dropWhile isJsSpace =
      '\'' :: (E ++ "' ) );".data) := by
    show ((' ' :: ('\'' :: (E ++ "' ) );".data))).dropWhile isJsSpace) = _
    rw [List.dropWhile_cons]
    rw [if_pos (by decide)]
    rw [List.dropWhile_cons]
    rw [if_neg (by decide)]
  rw [hdw]
  have hq1 : isQuote (('\'' :: (E ++ "' ) );".data)).headD 'x') = true := rfl
  rw [if_pos hq1]
  have hd1 : ('\'' :: (E ++ "' ) );".data)).drop 1 = E ++ "' ) );".data := rfl
  rw [hd1]
  have hgrp : ((E ++ "' ) );".data)).takeWhile (fun c => !(isQuote c)) = E := by
    rw [takeWhile_append_all E _ (fun c hc => by simp [hEq c hc])]
    rw [show (("' ) );".data : List Char)).takeWhile (fun c => !(isQuote c)) = [] from by
      rw [show ("' ) );".data : List Char) = '\'' :: " ) );".data from rfl]
      rw [List.takeWhile_cons]
      rw [if_neg (by decide)]]
    simp
  rw [hgrp]
  have hdrop2 : ((E ++ "' ) );".data)).drop E.length = "' ) );".data := by
    have := drop_len_add E ("' ) );".data) 0
    simpa using this
  rw [hdrop2]
  unfold matchQuotedBody
  rw [if_neg hEne]
  have hq2 : isQuote (("' ) );".data : List Char).headD 'x') = true := rfl
  rw [if_pos hq2]
  have hq3 : ((("' ) );".data : List Char).drop 1).dropWhile isJsSpace).headD 'x' = ')' := by
    decide
  rw [if_pos hq3]

theorem matchVarAt_canonical (X : List Char) :
    matchVarAt ("var wcSettings = JSON.parse( decodeURIComponent( '".data ++ X) =
      some "wcSettings".data := by
  have hsplit : ("var wcSettings = JSON.parse( decodeURIComponent( '".data : List Char)
      ++ X = "var".data ++ (" wcSettings = JSON.parse( decodeURIComponent( '".data ++ X) := by
    rw [show ("var wcSettings = JSON.parse( decodeURIComponent( '".data : List Char) =
      "var".data ++ " wcSettings = JSON.parse( decodeURIComponent( '".data from rfl]
    rw [List.append_assoc]
  rw [hsplit]
  unfold matchVarAt
  rw [if_pos (isPrefixOf_self_append _ _)]
  have hdrop : (("var".data : List Char) ++
      (" wcSettings = JSON.parse( decodeURIComponent( '".data ++ X)).drop 3 =
      " wcSettings = JSON.parse( decodeURIComponent( '".data ++ X := by
    rw [show (3 : Nat) = ("var".data : List Char).length + 0 from rfl]
    rw [drop_len_add]
    rw [List.drop_zero]
  rw [hdrop]
  have hws : ((" wcSettings = JSON.parse( decodeURIComponent( '".data : List Char)
      ++ X).takeWhile isJsSpace = [' '] := by
    show ((' ' :: ("wcSettings = JSON.parse( decodeURIComponent( '".data ++ X)).takeWhile
      isJsSpace) = [' ']
    rw [List.takeWhile_cons]
    rw [if_pos (by decide)]
    rw [show (("wcSettings = JSON.parse( decodeURIComponent( '".data ++ X).takeWhile
        isJsSpace) = [] from by
      show (('w' :: ("cSettings = JSON.parse( decodeURIComponent( '".data ++ X)).takeWhile
        isJsSpace) = []
      rw [List.takeWhile_cons]
      rw [if_neg (by decide)]]
  rw [hws]
  have hd1 : List.drop (List.length ([' '] : List Char))
      ((" wcSettings = JSON.parse( decodeURIComponent( '".data : List Char) ++ X) =
      "wcSettings = JSON.parse( decodeURIComponent( '".data ++ X := rfl
  rw [hd1]
  unfold matchVarBody
  rw [if_neg (show ¬(([' '] : List Char) = []) from by decide)]
  have hsplit2 : ("wcSettings = JSON.parse( decodeURIComponent( '".data : List Char)
      ++ X = "wcSettings".data ++ (" = JSON.parse( decodeURIComponent( '".data ++ X) := by
    rw [show ("wcSettings = JSON.parse( decodeURIComponent( '".data : List Char) =
      "wcSettings".data ++ " = JSON.parse( decodeURIComponent( '".data from rfl]
    rw [List.append_assoc]
  rw [hsplit2]
  have hword : (("wcSettings".data : List Char) ++
      (" = JSON.parse( decodeURIComponent( '".data ++ X)).takeWhile isWordChar =
      "wcSettings".data := by
    rw [takeWhile_append_all _ _ (by decide)]
    rw [show ((" = JSON.parse( decodeURIComponent( '".data ++ X).takeWhile isWordChar)
        = [] from by
      show ((' ' :: ("= JSON.parse( decodeURIComponent( '".data ++ X)).takeWhile
        isWordChar) = []
      rw [List.takeWhile_cons]
      rw [if_neg (by decide)]]
    simp
  rw [hword]
  rw [if_neg (show ¬(("wcSettings".data : List Char) = []) from by decide)]
  have hdrop2 : (("wcSettings".data : List Char) ++
      (" = JSON.parse( decodeURIComponent( '".data ++ X)).drop
      ("wcSettings".data : List Char).length =
      " = JSON.parse( decodeURIComponent( '".data ++ X := by
    have := drop_len_add ("wcSettings".data)
      (" = JSON.parse( decodeURIComponent( '".data ++ X) 0
    simpa using this
  rw [hdrop2]
  have hdw2 : ((" = JSON.parse( decodeURIComponent( '".data : List Char)
      ++ X).dropWhile isJsSpace =
      "= JSON.parse( decodeURIComponent( '".data ++ X := by
    show ((' ' :: ("= JSON.parse( decodeURIComponent( '".data ++ X)).dropWhile
      isJsSpace) = _
    rw [List.dropWhile_cons]
    rw [if_pos (by decide)]
    show (('=' :: (" JSON.parse( decodeURIComponent( '".data ++ X)).dropWhile
      isJsSpace) = _
    rw [List.dropWhile_cons]
    rw [if_neg (by decide)]
    rfl
  rw [hdw2]
  have heq : ((("= JSON.parse( decodeURIComponent( '".data : List Char) ++ X).headD 'x')
      = '=' := rfl
  rw [if_pos heq]

/-- C4: for every payload representable in the structured text form (its
percent-encoded JSON contains no apostrophe, so the single-quoted template
and the `[^'"]+` capture group can carry it, and it is canonical for
`JSON.parse`/`JSON.stringify`), decoding the WordPress-generated rawScript
recovers exactly the payload and the embedded encoded string, and
re-encoding the unmutated payload rebuilds the rawScript verbatim. -/
theorem wcSettings_decode_encode_roundtrip (p : Json)
    (hq : '\'' ∉ uriEncode (jsonStringify p))
    (hjson : jsonParse (jsonStringify p) = some p) :
    decodeWcSettings (wcRaw p) = some (p, wcEnc p) ∧
    encodeWcSettings (wcRaw p) p = some (wcRaw p) := by
  have hE : wcEnc p = uriEncode (jsonStringify p) := wcEnc_eq p hq
  have hEq : ∀ c ∈ uriEncode (jsonStringify p), isQuote c = false :=
    uriEncode_noQuote _ hq
  have hEne : uriEncode (jsonStringify p) ≠ [] :=
    uriEncode_ne_nil _ (jsonStringify_ne_nil p)
  have hsplit : wcRaw p = "var wcSettings = JSON.parse( ".data ++
      ("decodeURIComponent( '".data ++
        (uriEncode (jsonStringify p) ++ "' ) );".data)) := by
    unfold wcRaw
    rw [hE]
    rw [show ("var wcSettings = JSON.parse( decodeURIComponent( '".data : List Char) =
      "var wcSettings = JSON.parse( ".data ++ "decodeURIComponent( '".data from rfl]
    rw [List.append_assoc, List.append_assoc]
  have hfind : findDecodeArg (wcRaw p) = some (uriEncode (jsonStringify p)) := by
    rw [hsplit]
    rw [findDecodeArg_append_no_d _ _ (by decide)]
    exact findDecodeArg_cons_some 'd'
      ("ecodeURIComponent( '".data ++ (uriEncode (jsonStringify p) ++ "' ) );".data))
      (uriEncode (jsonStringify p))
      (matchDecodeAt_canonical (uriEncode (jsonStringify p)) hEne hEq)
  have hdec : decodeWcSettings (wcRaw p) = some (p, uriEncode (jsonStringify p)) := by
    unfold decodeWcSettings
    rw [hfind]
    show (match uriDecode (unescapeJs (uriEncode (jsonStringify p))) with
      | none => none
      | some j =>
        match jsonParse j with
        | none => none
        | some t => some (t, uriEncode (jsonStringify p))) =
      some (p, uriEncode (jsonStringify p))
    rw [unescapeJs_id _ (fun c hc he =>
      uriEncode_no_esc _ c hc (Or.inr (Or.inl he)))]
    rw [uriDecode_uriEncode]
    show (match jsonParse (jsonStringify p) with
      | none => none
      | some t => some (t, uriEncode (jsonStringify p))) =
      some (p, uriEncode (jsonStringify p))
    rw [hjson]
  refine ⟨by rw [hdec, hE], ?_⟩
  have hvar : findVarName (wcRaw p) = some "wcSettings".data := by
    have hcan := matchVarAt_canonical (wcEnc p ++ "' ) );".data)
    exact findVarName_cons_some 'v'
      ("ar wcSettings = JSON.parse( decodeURIComponent( '".data ++
        (wcEnc p ++ "' ) );".data))
      "wcSettings".data hcan
  unfold encodeWcSettings
  rw [hvar]
  rfl

/-- Witness: the round-trip at a concrete settings payload. -/
theorem wcSettings_roundtrip_witness :
    decodeWcSettings (wcRaw pW) = some (pW, wcEnc pW) ∧
    encodeWcSettings (wcRaw pW) pW = some (wcRaw pW) :=
  wcSettings_decode_encode_roundtrip pW (by decide) (by rfl)
